import Mathlib

/-!
Verification of the MathruAI AI backend's retrieval/chunking/token-budget
pipeline (chatbot/utils/text_chunker.py, chatbot/utils/token_manager.py,
chatbot/core/rag_system.py, dailyrecommendationAI/vector_database.py).

Strings are modelled as lists of characters (`Str`).  Python's regex
character classes are modelled at the ASCII level (`[a-z]`, `[A-Z]`, `\d`,
`\w` are literal ASCII ranges in the source patterns; `\s` and `str.strip`
are modelled by the six ASCII whitespace characters).  NLTK's
`sent_tokenize` is an external library call; the repository's own fallback
splitter `re.split(r'[.!?]+', text)` (text_chunker.py line 59) is used as
the concrete sentence splitter, and every definition that calls a sentence
splitter is parameterized over it so that splitter-independent facts are
proved for all splitters.
-/

namespace MathruAI

abbrev Str := List Char

/-- ASCII whitespace, modelling Python's `\s` class and `str.strip`
(space, tab, newline, carriage return, vertical tab, form feed). -/
def pyIsSpace (c : Char) : Bool :=
  c = ' ' || c = '\t' || c = '\n' || c = '\r' || c = '\x0b' || c = '\x0c'

/-- Python `str.strip()`: drop leading and trailing whitespace. -/
def stripL (l : Str) : Str :=
  ((l.dropWhile pyIsSpace).reverse.dropWhile pyIsSpace).reverse

/-- The scan of `re.sub(r'\s+', ' ', text)`: `inRun` records whether the
scan is inside a whitespace run whose single replacement space has
already been emitted. -/
def collapseWsAux : Bool → Str → Str
  | _, [] => []
  | inRun, c :: rest =>
    if pyIsSpace c then
      if inRun then collapseWsAux true rest
      else ' ' :: collapseWsAux true rest
    else c :: collapseWsAux false rest

/-- `re.sub(r'\s+', ' ', text)` (text_chunker.py line 215): every maximal
run of whitespace becomes a single space. -/
def collapseWs (l : Str) : Str := collapseWsAux false l

/-- Match the literal character list `pat` at the front of `l`, returning
the remainder. -/
def matchLit : Str → Str → Option Str
  | [], l => some l
  | _, [] => none
  | p :: ps, c :: cs => if c = p then matchLit ps cs else none

/-- Match one or more ASCII digits (`\d+`) at the front of `l`. -/
def matchDigits1 : Str → Option Str
  | [] => none
  | c :: cs =>
    if c.isDigit then some (cs.dropWhile Char.isDigit) else none

/-- Match the tail of the page-marker pattern `--- Page \d+ ---\n`
(everything after the leading newline), returning the remainder after the
final newline. -/
def pageMarkerTail (l : Str) : Option Str :=
  match matchLit "--- Page ".toList l with
  | none => none
  | some l₁ =>
    match matchDigits1 l₁ with
    | none => none
    | some l₂ =>
      match matchLit " ---".toList l₂ with
      | none => none
      | some l₃ =>
        match l₃ with
        | '\n' :: rest => some rest
        | _ => none

/-- The scan of `re.sub(r'\n--- Page \d+ ---\n', '\n\n', text)`: `skip`
counts characters of an already-replaced match that remain to be
consumed (after a match of total length `n` starting at a newline, the
scan resumes `n - 1` characters into the tail). -/
def rpmAux : Nat → Str → Str
  | _ + 1, [] => []
  | k + 1, _ :: rest => rpmAux k rest
  | 0, [] => []
  | 0, c :: rest =>
    if c = '\n' then
      match pageMarkerTail rest with
      | some rem => '\n' :: '\n' :: rpmAux (rest.length - rem.length) rest
      | none => c :: rpmAux 0 rest
    else c :: rpmAux 0 rest

/-- `re.sub(r'\n--- Page \d+ ---\n', '\n\n', text)` (text_chunker.py line
218): left-to-right non-overlapping replacement of page markers by two
newlines. -/
def removePageMarkers (l : Str) : Str := rpmAux 0 l

/-- `re.sub(r'([a-z])([A-Z])', r'\1 \2', text)` (text_chunker.py line 221):
insert a space between a lowercase letter immediately followed by an
uppercase letter, scanning left to right without overlap. -/
def fixLowerUpper : Str → Str
  | [] => []
  | [c] => [c]
  | a :: b :: rest =>
    if a.isLower && b.isUpper then a :: ' ' :: b :: fixLowerUpper rest
    else a :: fixLowerUpper (b :: rest)

/-- `re.sub(r'(\.)([A-Z])', r'\1 \2', text)` (text_chunker.py line 222):
insert a space between a period immediately followed by an uppercase
letter. -/
def fixPeriodUpper : Str → Str
  | [] => []
  | [c] => [c]
  | a :: b :: rest =>
    if a = '.' && b.isUpper then a :: ' ' :: b :: fixPeriodUpper rest
    else a :: fixPeriodUpper (b :: rest)

/-- Emit a finished newline run for `re.sub(r'\n{3,}', '\n\n', text)`:
runs of three or more are replaced by two, shorter runs are kept. -/
def emitNLRun (run : Nat) : Str :=
  if 3 ≤ run then ['\n', '\n'] else List.replicate run '\n'

/-- The scan of `re.sub(r'\n{3,}', '\n\n', text)`: `run` counts pending
consecutive newlines not yet emitted. -/
def cnlAux : Nat → Str → Str
  | run, [] => emitNLRun run
  | run, c :: rest =>
    if c = '\n' then cnlAux (run + 1) rest
    else emitNLRun run ++ c :: cnlAux 0 rest

/-- `re.sub(r'\n{3,}', '\n\n', text)` (text_chunker.py line 225): collapse
every run of three or more newlines into exactly two. -/
def collapseNL3 (l : Str) : Str := cnlAux 0 l

/-- `TextChunker.clean_text` (text_chunker.py lines 204-227): collapse
whitespace, remove page markers, fix missing spaces after lowercase-to-
uppercase transitions and after periods, collapse excessive newlines, and
strip the ends. -/
def cleanTextL (l : Str) : Str :=
  stripL (collapseNL3 (fixPeriodUpper (fixLowerUpper
    (removePageMarkers (collapseWs l)))))

/-- Sentence-ending punctuation used by the fallback splitter
`re.split(r'[.!?]+', text)` (text_chunker.py line 59). -/
def isSentPunct (c : Char) : Bool :=
  c = '.' || c = '!' || c = '?'

/-- The scan of `re.split(r'[.!?]+', text)`: `inRun` records whether the
scan is inside a punctuation run whose segment boundary has already been
produced. -/
def spAux : Bool → Str → List Str
  | _, [] => [[]]
  | inRun, c :: rest =>
    if isSentPunct c then
      if inRun then spAux true rest
      else [] :: spAux true rest
    else (spAux false rest).modifyHead (c :: ·)

/-- `re.split(r'[.!?]+', text)`: split on maximal runs of sentence
punctuation, dropping the delimiters.  This is the repository's own
fallback sentence splitter; the primary splitter (NLTK `sent_tokenize`)
is an external library call, so definitions take the splitter as a
parameter and are instantiated with this one. -/
def splitPunct (l : Str) : List Str := spAux false l

/-- `' '.join(pieces)`. -/
def joinSp : List Str → Str
  | [] => []
  | [p] => p
  | p :: ps => p ++ ' ' :: joinSp ps

/-- `'\n\n'.join(pieces)`. -/
def joinNL2 : List Str → Str
  | [] => []
  | [p] => p
  | p :: ps => p ++ '\n' :: '\n' :: joinNL2 ps

/-- Chunker configuration (`TextChunker.__init__`): `max_chunk_size`,
`overlap_size`, `min_chunk_size`. -/
structure ChunkCfg where
  maxSize : Nat
  overlap : Nat
  minSize : Nat

/-- The backwards overlap scan of `chunk_by_sentences` (text_chunker.py
lines 79-89): walk the finalized chunk's sentences from the end, keeping
sentences while the accumulated length stays within `overlap_size`; the
kept sentences are returned in their original order together with their
accumulated length.  `rev` is the reversed sentence list. -/
def overlapTake (ov : Nat) : List Str → Nat → List Str × Nat
  | [], acc => ([], acc)
  | s :: rest, acc =>
    if acc + s.length ≤ ov then
      ((overlapTake ov rest (acc + s.length)).1 ++ [s],
       (overlapTake ov rest (acc + s.length)).2)
    else ([], acc)

/-- Loop state of `chunk_by_sentences` / `chunk_by_paragraphs`:
finished chunks, the sentences/paragraphs of the chunk being built, and
the tracked length counter. -/
structure ChunkState where
  chunks : List Str
  cur : List Str
  curLen : Nat

/-- One iteration of the sentence loop of `chunk_by_sentences`
(text_chunker.py lines 65-95). -/
def cbsStep (cfg : ChunkCfg) (st : ChunkState) (sentRaw : Str) : ChunkState :=
  let s := stripL sentRaw
  if s = [] then st
  else
    let st' :=
      if cfg.maxSize < st.curLen + s.length ∧ st.cur ≠ [] then
        let chunkText := joinSp st.cur
        let chunks' :=
          if cfg.minSize ≤ chunkText.length then st.chunks ++ [chunkText]
          else st.chunks
        let ovl := overlapTake cfg.overlap st.cur.reverse 0
        { chunks := chunks', cur := ovl.1, curLen := ovl.2 }
      else st
    { st' with cur := st'.cur ++ [s], curLen := st'.curLen + s.length }

/-- The final-chunk step after the sentence loop (text_chunker.py lines
97-101). -/
def cbsFinal (cfg : ChunkCfg) (st : ChunkState) : List Str :=
  if st.cur ≠ [] then
    let chunkText := joinSp st.cur
    if cfg.minSize ≤ chunkText.length then st.chunks ++ [chunkText]
    else st.chunks
  else st.chunks

/-- `TextChunker.chunk_by_sentences` (text_chunker.py lines 45-103),
parameterized over the sentence splitter `split`. -/
def chunkBySentencesL (split : Str → List Str) (cfg : ChunkCfg) (l : Str) :
    List Str :=
  cbsFinal cfg ((split l).foldl (cbsStep cfg) ⟨[], [], 0⟩)

/-- Split on the literal separator `"\n\n"` (Python `text.split('\n\n')`),
leftmost-first and non-overlapping. -/
def splitSeq2NL : Str → List Str
  | [] => [[]]
  | [c] => [[c]]
  | c :: d :: rest =>
    if c = '\n' ∧ d = '\n' then [] :: splitSeq2NL rest
    else (splitSeq2NL (d :: rest)).modifyHead (c :: ·)

/-- The paragraph list of `chunk_by_paragraphs` (text_chunker.py line
115): `[p.strip() for p in text.split('\n\n') if p.strip()]`. -/
def paragraphsOf (l : Str) : List Str :=
  ((splitSeq2NL l).map stripL).filter (fun p => ¬ p = [])

/-- One iteration of the paragraph loop of `chunk_by_paragraphs`
(text_chunker.py lines 120-159). -/
def cbpStep (split : Str → List Str) (cfg : ChunkCfg) (st : ChunkState)
    (p : Str) : ChunkState :=
  if cfg.maxSize < p.length then
    -- paragraph alone exceeds max size: finalize current chunk, then
    -- split the paragraph by sentences
    let st₁ :=
      if st.cur ≠ [] then
        let chunkText := joinNL2 st.cur
        let chunks' :=
          if cfg.minSize ≤ chunkText.length then st.chunks ++ [chunkText]
          else st.chunks
        ChunkState.mk chunks' [] 0
      else st
    { st₁ with chunks := st₁.chunks ++ chunkBySentencesL split cfg p }
  else
    let st' :=
      if cfg.maxSize < st.curLen + p.length ∧ st.cur ≠ [] then
        let chunkText := joinNL2 st.cur
        let chunks' :=
          if cfg.minSize ≤ chunkText.length then st.chunks ++ [chunkText]
          else st.chunks
        if 0 < cfg.overlap ∧ st.cur ≠ [] then
          let lastPara := st.cur.getLastD []
          if lastPara.length ≤ cfg.overlap then
            ChunkState.mk chunks' [lastPara] lastPara.length
          else ChunkState.mk chunks' [] 0
        else ChunkState.mk chunks' [] 0
      else st
    { st' with cur := st'.cur ++ [p], curLen := st'.curLen + p.length + 2 }

/-- The final-chunk step after the paragraph loop (text_chunker.py lines
161-165). -/
def cbpFinal (cfg : ChunkCfg) (st : ChunkState) : List Str :=
  if st.cur ≠ [] then
    let chunkText := joinNL2 st.cur
    if cfg.minSize ≤ chunkText.length then st.chunks ++ [chunkText]
    else st.chunks
  else st.chunks

/-- `TextChunker.chunk_by_paragraphs` (text_chunker.py lines 105-167). -/
def chunkByParagraphsL (split : Str → List Str) (cfg : ChunkCfg) (l : Str) :
    List Str :=
  cbpFinal cfg ((paragraphsOf l).foldl (cbpStep split cfg) ⟨[], [], 0⟩)

/-- `TextChunker.smart_chunk` (text_chunker.py lines 169-202): clean the
text; return it whole when short enough (or nothing when below the
minimum); otherwise chunk by paragraphs, re-split any oversized chunk by
sentences, and drop chunks below `min_chunk_size`. -/
def smartChunkL (split : Str → List Str) (cfg : ChunkCfg) (l : Str) :
    List Str :=
  let t := cleanTextL l
  if t.length ≤ cfg.maxSize then
    if cfg.minSize ≤ t.length then [t] else []
  else
    let chunks := chunkByParagraphsL split cfg t
    let finalChunks := chunks.flatMap fun c =>
      if cfg.maxSize < c.length then chunkBySentencesL split cfg c else [c]
    finalChunks.filter (fun c => cfg.minSize ≤ c.length)

/-- `smart_chunk` with the repository's fallback sentence splitter. -/
def smartChunkFB (cfg : ChunkCfg) (l : Str) : List Str :=
  smartChunkL splitPunct cfg l

/-! ### Token manager (chatbot/utils/token_manager.py)

`TokenManager.count_tokens` uses the external tiktoken encoder when
available and `len(text) // 4` otherwise; definitions take the counter as
a parameter `count : Str → Nat` and concrete evaluations use the
repository's own fallback counter. -/

/-- The fallback token counter `len(text) // 4` (token_manager.py line
54). -/
def countTokApprox (l : Str) : Nat := l.length / 4

/-- Appending a chunk to the accumulated context, separated by a blank
line when the accumulator is nonempty (token_manager.py lines 90-92). -/
def appendCtx (acc c : Str) : Str :=
  if acc = [] then c else acc ++ ('\n' :: '\n' :: c)

/-- The partial-chunk logic of `truncate_context` (token_manager.py lines
98-109): cut the chunk to `n` characters, then, if the sentence splitter
finds more than one sentence, keep all but the last. -/
def trimPartial (split : Str → List Str) (n : Nat) (c : Str) : Str :=
  let part := c.take n
  let sents := split part
  if 1 < sents.length then joinSp sents.dropLast else part

/-- The chunk-packing loop of `truncate_context` (token_manager.py lines
83-114): append whole chunks while they fit the available budget; at the
first chunk that does not fit, append a partial chunk when more than 50
tokens remain; then stop. -/
def truncLoop (count : Str → Nat) (split : Str → List Str) (avail : Int) :
    Int → Str → List Str → Str
  | _, acc, [] => acc
  | cur, acc, c :: rest =>
    if cur + (count c : Int) ≤ avail then
      truncLoop count split avail (cur + (count c : Int)) (appendCtx acc c) rest
    else
      let rem := avail - cur
      if 50 < rem then appendCtx acc (trimPartial split (rem * 4).toNat c)
      else acc

/-- `TokenManager.truncate_context` (token_manager.py lines 56-119).
`maxCtx` is `self.max_context_tokens`; 500 tokens are reserved for the
response. -/
def truncateContext (count : Str → Nat) (split : Str → List Str)
    (maxCtx : Int) (chunks : List Str) (query sysPrompt : Str) : Str :=
  if chunks = [] then []
  else
    let avail : Int := maxCtx - (count sysPrompt : Int) - (count query : Int) - 500
    if avail ≤ 0 then (chunks.headD []).take 500
    else truncLoop count split avail 0 [] chunks

/-! ### Retrieval orchestrator (chatbot/core/rag_system.py) -/

/-- The system prompt returned by `VectorRAGSystem._get_system_prompt`
(rag_system.py line 339). -/
def sysPromptL : Str :=
  ("You are a helpful pregnancy guidance assistant. Provide accurate, " ++
   "supportive, and safe information about pregnancy. Always recommend " ++
   "consulting healthcare providers for medical concerns. Be empathetic " ++
   "and understanding.").toList

/-- Python list indexing `kb[i]`, including negative indices.  FAISS
returns ids in `[0, len kb)` or the sentinel `-1`, so the out-of-range
arm (an `IndexError` in Python) is unreachable in the modelled uses and
is padded with the empty string. -/
def pyGet (kb : List Str) (i : Int) : Str :=
  if 0 ≤ i ∧ i < (kb.length : Int) then kb.getD i.toNat []
  else if -(kb.length : Int) ≤ i ∧ i < 0 then
    kb.getD (kb.length - (-i).toNat) []
  else []

/-- The threshold filter of `find_relevant_context` (rag_system.py lines
290-294): keep `knowledge_base[idx]` for every search hit with a real id
and a score at or above the similarity threshold.  `res` is the zipped
`(score, index)` list returned by the FAISS search. -/
def relevantRaw (threshold : ℚ) (kb : List Str) (res : List (ℚ × Int)) :
    List Str :=
  res.filterMap fun si =>
    if si.2 ≠ -1 ∧ threshold ≤ si.1 then some (pyGet kb si.2) else none

/-- The best-match fallback of `find_relevant_context` (rag_system.py
lines 296-300): when no hit meets the threshold but the raw result list
is nonempty with a real first id, use the single best match. -/
def relevantWithFallback (threshold : ℚ) (kb : List Str)
    (res : List (ℚ × Int)) : List Str :=
  let r := relevantRaw threshold kb res
  if r = [] ∧ res ≠ [] ∧ (res.headD (0, -1)).2 ≠ -1 then
    [pyGet kb (res.headD (0, -1)).2]
  else r

/-! ### Keyword fallback (rag_system.py lines 312-335) -/

/-- ASCII lowering, modelling `str.lower()` on the modelled character
set. -/
def toLowerL (l : Str) : Str := l.map Char.toLower

/-- Python `\w` at the ASCII level: `[A-Za-z0-9_]`. -/
def wordChar (c : Char) : Bool := c.isAlpha || c.isDigit || c = '_'

/-- The scan of `re.findall(r'\w+', text)`: `cur` holds the reversed
characters of the word run currently being read. -/
def fwAux (cur : Str) : Str → List Str
  | [] => if cur = [] then [] else [cur.reverse]
  | c :: rest =>
    if wordChar c then fwAux (c :: cur) rest
    else if cur = [] then fwAux [] rest
    else cur.reverse :: fwAux [] rest

/-- `re.findall(r'\w+', text)`: the maximal runs of word characters. -/
def findallWords (l : Str) : List Str := fwAux [] l

/-- Does `l` start with `pat`? -/
def startsWithL : Str → Str → Bool
  | [], _ => true
  | _ :: _, [] => false
  | p :: ps, c :: cs => p = c && startsWithL ps cs

/-- Python `hay.count(pat)` for nonempty `pat`: non-overlapping
occurrences, scanning left to right.  `skip` counts remaining characters
of an already-counted match to pass over. -/
def countOccAux (pat : Str) : Nat → Str → Nat
  | _, [] => 0
  | k + 1, _ :: rest => countOccAux pat k rest
  | 0, c :: rest =>
    if startsWithL pat (c :: rest) then
      1 + countOccAux pat (pat.length - 1) rest
    else countOccAux pat 0 rest

/-- Python `hay.count(pat)` for nonempty `pat`. -/
def countOcc (pat hay : Str) : Nat := countOccAux pat 0 hay

/-- Python `hay.count(pat)` (an empty pattern counts `len + 1` slots). -/
def countSub (hay pat : Str) : Nat :=
  if pat = [] then hay.length + 1 else countOcc pat hay

/-- The chunk score of `_fallback_keyword_search` (rag_system.py lines
318-325): the summed occurrence counts, in the lowercased chunk, of the
lowercased query's words longer than 3 characters. -/
def chunkScore (query chunk : Str) : Nat :=
  (findallWords (toLowerL query)).foldl
    (fun acc w => if 3 < w.length then acc + countSub (toLowerL chunk) w else acc) 0

/-- The `scored_chunks` list (rag_system.py lines 318-328): each chunk of
the knowledge base with a nonzero score, paired with its score, in
knowledge-base order. -/
def scoredChunks (query : Str) (kb : List Str) : List (Nat × Str) :=
  kb.filterMap fun c =>
    if 0 < chunkScore query c then some (chunkScore query c, c) else none

/-- Stable descending insertion by score: the new element goes in front
of every element whose score is at most its own only when strictly
greater, i.e. it lands after all earlier-inserted elements with a
greater-or-equal score that precede it and before strictly smaller
ones — together with `sortDesc` this models Python's stable
`list.sort(reverse=True, key=score)`. -/
def insertDesc (x : Nat × Str) : List (Nat × Str) → List (Nat × Str)
  | [] => [x]
  | y :: ys => if y.1 ≤ x.1 then x :: y :: ys else y :: insertDesc x ys

/-- Stable descending sort by score (Python `list.sort(reverse=True,
key=lambda x: x[0])` is stable). -/
def sortDesc (l : List (Nat × Str)) : List (Nat × Str) :=
  l.foldr insertDesc []

/-- The candidate chunk list of `_fallback_keyword_search` (rag_system.py
lines 330-331): nonzero-scoring chunks sorted by descending score, the
first `top_k * 2` of them. -/
def fallbackRelevant (query : Str) (kb : List Str) (topK : Nat) : List Str :=
  ((sortDesc (scoredChunks query kb)).take (topK * 2)).map Prod.snd

/-- `VectorRAGSystem._fallback_keyword_search` (rag_system.py lines
312-335). -/
def fallbackKeywordSearch (count : Str → Nat) (split : Str → List Str)
    (maxCtx : Int) (kb : List Str) (query : Str) (topK : Nat) : Str :=
  truncateContext count split maxCtx (fallbackRelevant query kb topK) query
    sysPromptL

/-- `VectorRAGSystem.find_relevant_context` (rag_system.py lines
261-310).  `ntotal` is the FAISS index size; `searchRes` is the outcome
of the external embedding + FAISS search call (`.error` when that call
raises, making the `except` branch take the keyword fallback). -/
def findRelevantContext (count : Str → Nat) (split : Str → List Str)
    (maxCtx : Int) (threshold : ℚ) (kb : List Str) (ntotal : Nat)
    (searchRes : Except Unit (List (ℚ × Int))) (query : Str) (topK : Nat) :
    Str :=
  if kb = [] ∨ ntotal = 0 then []
  else
    match searchRes with
    | .error _ => fallbackKeywordSearch count split maxCtx kb query topK
    | .ok res =>
      truncateContext count split maxCtx (relevantWithFallback threshold kb res)
        query sysPromptL

/-! ### Response generation (rag_system.py lines 341-422) -/

/-- `VectorRAGSystem._create_user_prompt` (rag_system.py lines 341-353). -/
def createUserPrompt (query context : Str) : Str :=
  if context ≠ [] then
    "Context information:\n".toList ++ context ++
    "\n\nQuestion: ".toList ++ query ++
    ("\n\nPlease provide a helpful response based on the context above. " ++
     "If the context doesn\x27t contain relevant information, provide " ++
     "general pregnancy guidance while emphasizing the importance of " ++
     "consulting healthcare providers.").toList
  else
    "Question: ".toList ++ query ++
    ("\n\nPlease provide helpful pregnancy guidance while emphasizing " ++
     "the importance of consulting healthcare providers for specific " ++
     "medical concerns.").toList

/-- The user-visible error message of `generate_response` (rag_system.py
line 411). -/
def apologyStr (e : Str) : Str :=
  "I\x27m sorry, I encountered an error: ".toList ++ e ++
  ". Please try again or consult your healthcare provider.".toList

/-- `VectorRAGSystem.generate_response` (rag_system.py lines 355-422).
The external LLM completion call is modelled by `llm`, a function of the
system prompt, the user prompt and the attempt index (the index models
the nondeterminism of successive calls to the external service); the
source makes exactly one call, with attempt index 0, and converts any
raised error into the apologetic message. -/
def generateResponse (count : Str → Nat) (split : Str → List Str)
    (maxCtx : Int) (threshold : ℚ) (kb : List Str) (ntotal : Nat)
    (searchRes : Except Unit (List (ℚ × Int))) (topK : Nat)
    (llm : Str → Str → Nat → Except Str Str) (query : Str) : Str :=
  let context := findRelevantContext count split maxCtx threshold kb ntotal
    searchRes query topK
  let total := count sysPromptL + count context + count query
  let context' :=
    if 5500 < total then joinNL2 ((splitSeq2NL context).take 2) else context
  let userPrompt := createUserPrompt query context'
  match llm sysPromptL userPrompt 0 with
  | .ok r => r
  | .error e => apologyStr e

/-- Modelled from the spec: "core code must treat any such error as
retriable-once-then-fallback-to-error-message".  The same pipeline as
`generateResponse`, but retrying the LLM call once (attempt index 1)
before falling back to the error message.  Used to compare the claimed
retry behavior with the code's actual single-call behavior. -/
def generateResponseRetrySpec (count : Str → Nat) (split : Str → List Str)
    (maxCtx : Int) (threshold : ℚ) (kb : List Str) (ntotal : Nat)
    (searchRes : Except Unit (List (ℚ × Int))) (topK : Nat)
    (llm : Str → Str → Nat → Except Str Str) (query : Str) : Str :=
  let context := findRelevantContext count split maxCtx threshold kb ntotal
    searchRes query topK
  let total := count sysPromptL + count context + count query
  let context' :=
    if 5500 < total then joinNL2 ((splitSeq2NL context).take 2) else context
  let userPrompt := createUserPrompt query context'
  match llm sysPromptL userPrompt 0 with
  | .ok r => r
  | .error _ =>
    match llm sysPromptL userPrompt 1 with
    | .ok r => r
    | .error e => apologyStr e

/-! ### Greedy packing, stated from the spec (for claim C6) -/

/-- Modelled from the spec: the number of leading candidate chunks that
are appended in full, i.e. whose token counts cumulatively fit the
available budget ("append a chunk in full ... if its token count fits
within remaining budget"). -/
def fullFitCount (count : Str → Nat) (avail : Int) : Int → List Str → Nat
  | _, [] => 0
  | used, c :: rest =>
    if used + (count c : Int) ≤ avail then
      fullFitCount count avail (used + (count c : Int)) rest + 1
    else 0

/-- Modelled from the spec (§4.4 greedy packing, the wording of claim
C6): append the fully fitting leading chunks, each separated from the
previous text by a blank line; at the first chunk that does not fully
fit, append a partial chunk only when more than 50 tokens of budget
remain, truncated to `remaining_tokens * 4` characters and trimmed to the
last complete sentence when more than one sentence remains; no later
chunk is considered. -/
def specAssemble (count : Str → Nat) (split : Str → List Str) (avail : Int)
    (chunks : List Str) : Str :=
  let n := fullFitCount count avail 0 chunks
  let full := chunks.take n
  let used : Int := ((full.map count).sum : Nat)
  let base := full.foldl appendCtx []
  match chunks.drop n with
  | [] => base
  | c :: _ =>
    let rem := avail - used
    if 50 < rem then appendCtx base (trimPartial split (rem * 4).toNat c)
    else base

/-- Generalization of `specAssemble` to a running token total `cur` and
accumulated text `acc` (used to relate the spec-level assembler to the
source's packing loop). -/
def specAssembleFrom (count : Str → Nat) (split : Str → List Str)
    (avail cur : Int) (acc : Str) (chunks : List Str) : Str :=
  let n := fullFitCount count avail cur chunks
  let full := chunks.take n
  let used : Int := cur + (((full.map count).sum : Nat) : Int)
  let base := full.foldl appendCtx acc
  match chunks.drop n with
  | [] => base
  | c :: _ =>
    let rem := avail - used
    if 50 < rem then appendCtx base (trimPartial split (rem * 4).toNat c)
    else base

/-! ### Vector store operations (for claim C10)

Embedding vectors are modelled over `ℚ`; the external embedding model is
a parameter.  `faiss.normalize_L2` is an external FAISS routine, so it is
likewise a parameter, constrained where needed by the hypothesis that its
output is unit-normalized. -/

/-- Squared L2 norm of a vector. -/
def normSqQ (v : List ℚ) : ℚ := (v.map fun x => x * x).sum

/-- The vector's L2 norm is within `1e-5` of `1.0`, phrased on the
squared norm: for a nonnegative norm and tolerance below 1 this is
equivalent to `|‖v‖ - 1| ≤ 1e-5`. -/
def unitNormWithinTol (v : List ℚ) : Prop :=
  (1 - 1/100000)^2 ≤ normSqQ v ∧ normSqQ v ≤ (1 + 1/100000)^2

instance (v : List ℚ) : Decidable (unitNormWithinTol v) := by
  unfold unitNormWithinTol
  infer_instance

/-- The vectors stored by
`VectorRAGSystem._generate_and_store_embeddings` (rag_system.py lines
141-155): the model's embeddings with `faiss.normalize_L2` applied to
each row before `add_with_ids`. -/
def genStoreEmbeddings (normalizeL2 : List ℚ → List ℚ)
    (embed : List Str → List (List ℚ)) (texts : List Str) : List (List ℚ) :=
  (embed texts).map normalizeL2

/-- The query vector submitted by `find_relevant_context` (rag_system.py
lines 282-284): the query embedding with `faiss.normalize_L2` applied. -/
def ragQueryVec (normalizeL2 : List ℚ → List ℚ) (embedOne : Str → List ℚ)
    (query : Str) : List ℚ :=
  normalizeL2 (embedOne query)

/-- The vectors stored by `VectorDatabase.add_chunks`
(dailyrecommendationAI/vector_database.py lines 28-35): the model's
embeddings are added to the `IndexFlatIP` unchanged — no normalization is
applied. -/
def addChunksStored (embed : List Str → List (List ℚ)) (chunks : List Str) :
    List (List ℚ) :=
  embed chunks

/-- The query vector submitted by `VectorDatabase.search_similar_chunks`
(vector_database.py lines 61-62): the raw query embedding, no
normalization. -/
def vdbQueryVec (embedOne : Str → List ℚ) (query : Str) : List ℚ :=
  embedOne query

/-! ### Invariants of cleaned text (used for claims C3 and C9)

`clean_text` output contains only plain spaces as whitespace, no two
adjacent whitespace characters, no lowercase letter immediately followed
by an uppercase letter, no period immediately followed by an uppercase
letter, and no whitespace at either end.  These predicates state those
facts for the character-list model. -/

/-- All whitespace characters of `l` are plain spaces. -/
def wsOnly (l : Str) : Prop := ∀ c ∈ l, pyIsSpace c = true → c = ' '

/-- No two adjacent whitespace characters. -/
def noWW (l : Str) : Prop :=
  l.Chain' fun a b => ¬ (pyIsSpace a = true ∧ pyIsSpace b = true)

/-- No lowercase letter immediately followed by an uppercase letter. -/
def noLU (l : Str) : Prop :=
  l.Chain' fun a b => ¬ (a.isLower = true ∧ b.isUpper = true)

/-- No period immediately followed by an uppercase letter. -/
def noPU (l : Str) : Prop :=
  l.Chain' fun a b => ¬ (a = '.' ∧ b.isUpper = true)

/-- The first character, when present, is not whitespace. -/
def headOk (l : Str) : Prop := ∀ c ∈ l.head?, pyIsSpace c = false

/-- The last character, when present, is not whitespace. -/
def lastOk (l : Str) : Prop := ∀ c ∈ l.getLast?, pyIsSpace c = false

/-- The invariant needed of a string fed to `chunk_by_sentences`. -/
def SGood (l : Str) : Prop := wsOnly l ∧ noWW l ∧ noLU l

/-- The invariant satisfied by every chunk `smart_chunk` produces, strong
enough to make `clean_text` the identity on the chunk. -/
def ChunkGood (l : Str) : Prop :=
  wsOnly l ∧ noWW l ∧ noLU l ∧ noPU l ∧ headOk l ∧ lastOk l

/-- The invariant of a stripped sentence inside the sentence loop:
non-empty, clean, free of sentence punctuation, no whitespace at the
ends. -/
def PieceGood (l : Str) : Prop :=
  l ≠ [] ∧ wsOnly l ∧ noWW l ∧ noLU l ∧
  (∀ c ∈ l, isSentPunct c = false) ∧ headOk l ∧ lastOk l

/-- The invariant of a chunk built by `chunk_by_sentences` from good
pieces: like `ChunkGood`, but with outright absence of sentence
punctuation in place of the `noPU` chain (the fallback splitter removes
all punctuation, and the space-joins introduce none). -/
def SentChunkGood (l : Str) : Prop :=
  wsOnly l ∧ noWW l ∧ noLU l ∧
  (∀ c ∈ l, isSentPunct c = false) ∧ headOk l ∧ lastOk l

/-- The invariant of a raw (unstripped) sentence produced by the
fallback splitter from clean text: clean, and free of sentence
punctuation. -/
def RawSentOk (l : Str) : Prop :=
  wsOnly l ∧ noWW l ∧ noLU l ∧ (∀ c ∈ l, isSentPunct c = false)

/-- The invariant carried through the sentence loop: finished chunks are
good sentence chunks, pending sentences are good pieces. -/
def CBSInv (st : ChunkState) : Prop :=
  (∀ c ∈ st.chunks, SentChunkGood c) ∧ (∀ p ∈ st.cur, PieceGood p)

/-! ## Theorems -/

/-! ### Character-class facts -/

theorem pyIsSpace_cases {c : Char} (h : pyIsSpace c = true) :
    c = ' ' ∨ c = '\t' ∨ c = '\n' ∨ c = '\r' ∨ c = '\x0b' ∨ c = '\x0c' := by
  simp only [pyIsSpace, Bool.or_eq_true, decide_eq_true_eq] at h
  tauto

theorem isLower_not_space {c : Char} (h : c.isLower = true) :
    pyIsSpace c = false := by
  by_contra hc
  rcases pyIsSpace_cases (by simpa using hc) with h' | h' | h' | h' | h' | h' <;>
    (subst h'; exact absurd h (by decide))

theorem isUpper_not_space {c : Char} (h : c.isUpper = true) :
    pyIsSpace c = false := by
  by_contra hc
  rcases pyIsSpace_cases (by simpa using hc) with h' | h' | h' | h' | h' | h' <;>
    (subst h'; exact absurd h (by decide))

theorem space_not_lower : (' ' : Char).isLower = false := by decide

theorem space_not_upper : (' ' : Char).isUpper = false := by decide

theorem period_not_space : pyIsSpace '.' = false := by decide

theorem nl_is_space : pyIsSpace '\n' = true := by decide

theorem wsOnly_no_nl {l : Str} (h : wsOnly l) : '\n' ∉ l := by
  intro hmem
  have := h '\n' hmem nl_is_space
  exact absurd this (by decide)

/-! ### Chain' helpers -/

theorem chain'_append_left {R : Char → Char → Prop} {l₁ l₂ : Str}
    (h : (l₁ ++ l₂).Chain' R) : l₁.Chain' R :=
  (List.chain'_append.1 h).1

theorem chain'_append_right {R : Char → Char → Prop} {l₁ l₂ : Str}
    (h : (l₁ ++ l₂).Chain' R) : l₂.Chain' R :=
  (List.chain'_append.1 h).2.1

theorem chain'_of_isInfix {R : Char → Char → Prop} {l m : Str}
    (h : l.Chain' R) (hinf : m <:+: l) : m.Chain' R := by
  obtain ⟨s, t, rfl⟩ := hinf
  exact chain'_append_right (chain'_append_left (by simpa [List.append_assoc] using h))

theorem wsOnly_of_isInfix {l m : Str} (h : wsOnly l) (hinf : m <:+: l) :
    wsOnly m := by
  intro c hc
  exact h c (hinf.subset hc)

/-- Claim C5: for every non-empty candidate chunk list, query and system
prompt, if `available = max_context_tokens - tokens(system_prompt) -
tokens(query) - 500` is at most 0, then `truncate_context` returns
exactly the first 500 characters of the first candidate chunk (and, being
total, raises no exception).  Holds for every token counter and sentence
splitter. -/
theorem c5_negative_budget_hard_fallback (count : Str → Nat)
    (split : Str → List Str) (maxCtx : Int) (chunks : List Str)
    (query sysPrompt : Str) (hne : chunks ≠ [])
    (hbudget : maxCtx - (count sysPrompt : Int) - (count query : Int) - 500 ≤ 0) :
    truncateContext count split maxCtx chunks query sysPrompt =
      (chunks.headD []).take 500 := by
  unfold truncateContext
  rw [if_neg hne, if_pos hbudget]

/-- Witness for C5 at the spec's concrete scenario 5: one long chunk,
`max_total_tokens = 10`, so the budget is immediately negative and the
first 500 characters of the chunk come back. -/
theorem c5_witness :
    truncateContext countTokApprox splitPunct 10
      ["A very long chunk of pregnancy guidance text".toList] "Q".toList
      "S".toList =
      ("A very long chunk of pregnancy guidance text".toList).take 500 :=
  c5_negative_budget_hard_fallback countTokApprox splitPunct 10
    ["A very long chunk of pregnancy guidance text".toList] "Q".toList
    "S".toList (by decide) (by decide)

set_option maxRecDepth 10000 in
/-- Claim C4, counterexample: with a non-empty knowledge base but an
empty FAISS index (`ntotal = 0`), `find_relevant_context` returns the
empty string (rag_system.py lines 276-278) — it does not run the keyword
fallback, which on the same input would return a non-empty context. -/
theorem c4_counterexample :
    findRelevantContext countTokApprox splitPunct 3000 (1/10)
        ["pregnancy vitamins are important".toList] 0 (.ok [(1, 0)])
        "pregnancy vitamins".toList 5 = [] ∧
    fallbackKeywordSearch countTokApprox splitPunct 3000
        ["pregnancy vitamins are important".toList]
        "pregnancy vitamins".toList 5 =
      "pregnancy vitamins are important".toList := by
  exact ⟨by decide, by decide⟩

/-- Claim C4 as amended: when the vector search raises an error (but the
knowledge base and index are non-empty) `find_relevant_context` answers
through the keyword-fallback path; when the knowledge base or the index
is empty it returns the empty string directly, without invoking the
keyword fallback. -/
theorem c4_fallback_paths (count : Str → Nat) (split : Str → List Str)
    (maxCtx : Int) (threshold : ℚ) (kb : List Str) (ntotal : Nat)
    (searchRes : Except Unit (List (ℚ × Int))) (query : Str) (topK : Nat) :
    (kb = [] ∨ ntotal = 0 →
      findRelevantContext count split maxCtx threshold kb ntotal searchRes
        query topK = []) ∧
    (searchRes = .error () → ¬ (kb = [] ∨ ntotal = 0) →
      findRelevantContext count split maxCtx threshold kb ntotal searchRes
        query topK =
        fallbackKeywordSearch count split maxCtx kb query topK) := by
  constructor
  · intro h
    unfold findRelevantContext
    rw [if_pos h]
  · intro hs h
    subst hs
    unfold findRelevantContext
    rw [if_neg h]

/-- Witness for C4's amended statement: a raised vector search over a
non-empty knowledge base lands in the keyword fallback, and an empty
knowledge base yields the empty string. -/
theorem c4_witness :
    findRelevantContext countTokApprox splitPunct 3000 (1/10)
        ["folic acid matters".toList] 1 (.error ()) "folic".toList 5 =
      fallbackKeywordSearch countTokApprox splitPunct 3000
        ["folic acid matters".toList] "folic".toList 5 ∧
    findRelevantContext countTokApprox splitPunct 3000 (1/10) [] 1
        (.ok [(1, 0)]) "folic".toList 5 = [] := by
  constructor
  · exact (c4_fallback_paths countTokApprox splitPunct 3000 (1/10)
      ["folic acid matters".toList] 1 (.error ()) "folic".toList 5).2
      rfl (by decide)
  · exact (c4_fallback_paths countTokApprox splitPunct 3000 (1/10) [] 1
      (.ok [(1, 0)]) "folic".toList 5).1 (Or.inl rfl)

/-- A transient external LLM service whose first call raises and whose
retry would succeed (used to exhibit the absence of a retry in
`generate_response`). -/
def llmFlaky : Str → Str → Nat → Except Str Str := fun _ _ n =>
  if n = 0 then .error "boom".toList else .ok "recovered".toList

/-- An external LLM service that always raises. -/
def llmDown : Str → Str → Nat → Except Str Str := fun _ _ _ =>
  .error "down".toList

set_option maxRecDepth 10000 in
/-- Claim C7, counterexample: when the first LLM call raises and a second
attempt would succeed, `generate_response` returns the apologetic error
message rather than the retried call's answer — the source makes exactly
one completion call (rag_system.py lines 386-394), so the claimed
retry-once behavior (`generateResponseRetrySpec`, modelled from the spec)
disagrees with the code on this input. -/
theorem c7_counterexample :
    generateResponse countTokApprox splitPunct 3000 (1/10)
        ["hello there friend".toList] 1 (.ok [(1, 0)]) 5 llmFlaky
        "hi".toList =
      apologyStr "boom".toList ∧
    generateResponseRetrySpec countTokApprox splitPunct 3000 (1/10)
        ["hello there friend".toList] 1 (.ok [(1, 0)]) 5 llmFlaky
        "hi".toList =
      "recovered".toList ∧
    apologyStr "boom".toList ≠ "recovered".toList :=
  ⟨by decide, by decide, by decide⟩

/-- Claim C7 as amended: if the external LLM completion call raises an
error, `generate_response` immediately (without any retry) falls back to
the user-visible apologetic error-message string built from the
exception text; being total, nothing propagates to the caller. -/
theorem c7_error_message_fallback (count : Str → Nat)
    (split : Str → List Str) (maxCtx : Int) (threshold : ℚ) (kb : List Str)
    (ntotal : Nat) (searchRes : Except Unit (List (ℚ × Int))) (topK : Nat)
    (llm : Str → Str → Nat → Except Str Str) (query e : Str)
    (h : ∀ s u, llm s u 0 = Except.error e) :
    generateResponse count split maxCtx threshold kb ntotal searchRes topK
      llm query = apologyStr e := by
  unfold generateResponse
  simp only [h]

/-- Witness for C7's amended statement: a permanently failing LLM call
yields the apologetic message. -/
theorem c7_witness :
    generateResponse countTokApprox splitPunct 3000 (1/10)
        ["abcd".toList] 1 (.ok [(1, 0)]) 5 llmDown "hi".toList =
      apologyStr "down".toList :=
  c7_error_message_fallback countTokApprox splitPunct 3000 (1/10)
    ["abcd".toList] 1 (.ok [(1, 0)]) 5 llmDown "hi".toList "down".toList
    (fun _ _ => rfl)

/-- An external embedding model returning a non-unit vector (the spec's
external contract, §6, promises only `float32` vectors of a fixed
dimension — not unit norm). -/
def embedConst34 : List Str → List (List ℚ) := fun _ => [[3, 4]]

/-- Claim C10, counterexample: `VectorDatabase.add_chunks`
(dailyrecommendationAI/vector_database.py lines 28-35) stores the model's
embeddings without any normalization, so a model output of norm 5 is
stored as-is, violating the claimed unit-norm invariant. -/
theorem c10_counterexample :
    ¬ (∀ v ∈ addChunksStored embedConst34 ["pregnancy nutrition".toList],
        unitNormWithinTol v) := by
  intro h
  have h34 := h [3, 4] (by simp [addChunksStored, embedConst34])
  have : ¬ unitNormWithinTol [3, 4] := by
    unfold unitNormWithinTol normSqQ
    norm_num
  exact this h34

/-- Claim C10 as amended: in the chatbot `VectorRAGSystem`, every vector
stored by `_generate_and_store_embeddings` and every query vector
submitted by `find_relevant_context` passes through `faiss.normalize_L2`
first, so whenever that (external) routine produces unit-norm output,
every stored and queried vector has L2 norm within `1e-5` of 1; the
`VectorDatabase.add_chunks` path stores raw embeddings and carries no
such guarantee. -/
theorem c10_rag_vectors_normalized (normalizeL2 : List ℚ → List ℚ)
    (embed : List Str → List (List ℚ)) (embedOne : Str → List ℚ)
    (texts : List Str) (query : Str)
    (hnorm : ∀ v, unitNormWithinTol (normalizeL2 v)) :
    (∀ w ∈ genStoreEmbeddings normalizeL2 embed texts, unitNormWithinTol w) ∧
    unitNormWithinTol (ragQueryVec normalizeL2 embedOne query) := by
  refine ⟨?_, hnorm _⟩
  intro w hw
  unfold genStoreEmbeddings at hw
  obtain ⟨v, -, rfl⟩ := List.mem_map.1 hw
  exact hnorm v

/-- Witness for C10's amended statement with a concrete normalizer. -/
theorem c10_witness :
    unitNormWithinTol
      (ragQueryVec (fun _ => ([1] : List ℚ)) (fun _ => [3, 4]) "q".toList) := by
  have h1 : unitNormWithinTol [1] := by
    unfold unitNormWithinTol normSqQ
    norm_num
  exact (c10_rag_vectors_normalized (fun _ => [1]) (fun _ => [[3, 4]])
    (fun _ => [3, 4]) ["t".toList] "q".toList (fun _ => h1)).2

/-- Claim C1, counterexample: with the valid configuration
`max_chunk_size = 10`, `overlap_size = 0`, `min_chunk_size = 1`, the
15-character single-sentence text `"aaaaaaaaaaaaaaa"` comes back from
`smart_chunk` as one chunk of length 15 > 10: a sentence that alone
exceeds `max_chunk_size` is emitted whole by `chunk_by_sentences`, so the
claimed upper bound fails. -/
theorem c1_counterexample :
    0 < (ChunkCfg.mk 10 0 1).maxSize ∧
    (ChunkCfg.mk 10 0 1).overlap < (ChunkCfg.mk 10 0 1).maxSize ∧
    0 < (ChunkCfg.mk 10 0 1).minSize ∧
    (ChunkCfg.mk 10 0 1).minSize ≤ (ChunkCfg.mk 10 0 1).maxSize ∧
    ¬ (∀ c ∈ smartChunkFB (ChunkCfg.mk 10 0 1) "aaaaaaaaaaaaaaa".toList,
        (ChunkCfg.mk 10 0 1).minSize ≤ c.length ∧
        c.length ≤ (ChunkCfg.mk 10 0 1).maxSize) := by
  decide

/-- Claim C1 as amended: every chunk returned by `smart_chunk` has length
at least `min_chunk_size` (the final filter at text_chunker.py line 198
and the guards at lines 183 enforce this for every configuration and
every sentence splitter); the upper bound `max_chunk_size` can be
exceeded when a single sentence is longer than `max_chunk_size`. -/
theorem c1_min_length_bound (split : Str → List Str) (cfg : ChunkCfg)
    (l : Str) :
    ∀ c ∈ smartChunkL split cfg l, cfg.minSize ≤ c.length := by
  intro c hc
  unfold smartChunkL at hc
  by_cases h : (cleanTextL l).length ≤ cfg.maxSize
  · rw [if_pos h] at hc
    by_cases h2 : cfg.minSize ≤ (cleanTextL l).length
    · rw [if_pos h2] at hc
      simp only [List.mem_singleton] at hc
      subst hc
      exact h2
    · rw [if_neg h2] at hc
      simp at hc
  · rw [if_neg h] at hc
    simp only [List.mem_filter, decide_eq_true_eq] at hc
    exact hc.2

/-- Witness for C1's amended statement on a short concrete text. -/
theorem c1_witness :
    (ChunkCfg.mk 100 10 5).minSize ≤
      "hello world this is a test".toList.length :=
  c1_min_length_bound splitPunct (ChunkCfg.mk 100 10 5)
    "hello world this is a test".toList
    "hello world this is a test".toList (by decide)

/-! ### Lemmas about the stable descending sort used by the keyword
fallback -/

theorem insertDesc_perm (x : Nat × Str) (l : List (Nat × Str)) :
    (insertDesc x l).Perm (x :: l) := by
  induction l with
  | nil => simp [insertDesc]
  | cons y ys ih =>
    unfold insertDesc
    by_cases h : y.1 ≤ x.1
    · rw [if_pos h]
    · rw [if_neg h]
      exact (ih.cons y).trans (List.Perm.swap x y ys)

theorem sortDesc_perm (l : List (Nat × Str)) : (sortDesc l).Perm l := by
  induction l with
  | nil => simp [sortDesc]
  | cons x xs ih =>
    have : sortDesc (x :: xs) = insertDesc x (sortDesc xs) := rfl
    rw [this]
    exact (insertDesc_perm x (sortDesc xs)).trans (ih.cons x)

theorem insertDesc_head (x : Nat × Str) (l : List (Nat × Str)) :
    (insertDesc x l).head? = some x ∨ (insertDesc x l).head? = l.head? := by
  cases l with
  | nil => left; rfl
  | cons y ys =>
    unfold insertDesc
    by_cases h : y.1 ≤ x.1
    · rw [if_pos h]; left; rfl
    · rw [if_neg h]; right; rfl

theorem insertDesc_chain (x : Nat × Str) (l : List (Nat × Str))
    (hl : l.Chain' (fun a b => b.1 ≤ a.1)) :
    (insertDesc x l).Chain' (fun a b => b.1 ≤ a.1) := by
  induction l with
  | nil => simp [insertDesc]
  | cons y ys ih =>
    unfold insertDesc
    by_cases h : y.1 ≤ x.1
    · rw [if_pos h]
      exact List.Chain'.cons h hl
    · rw [if_neg h]
      have htail := (List.chain'_cons'.1 hl).2
      have hhead := (List.chain'_cons'.1 hl).1
      refine List.chain'_cons'.2 ⟨?_, ih htail⟩
      intro z hz
      have hz' : (insertDesc x ys).head? = some z := hz
      rcases insertDesc_head x ys with hh | hh
      · have hzx : z = x := Option.some.inj (hz'.symm.trans hh)
        subst hzx
        omega
      · exact hhead z (hh.symm.trans hz')

theorem sortDesc_chain (l : List (Nat × Str)) :
    (sortDesc l).Chain' (fun a b => b.1 ≤ a.1) := by
  induction l with
  | nil => simp [sortDesc]
  | cons x xs ih => exact insertDesc_chain x (sortDesc xs) ih

theorem filter_insertDesc (s : Nat) (x : Nat × Str) (l : List (Nat × Str)) :
    (insertDesc x l).filter (fun p => p.1 = s) =
      if x.1 = s then x :: l.filter (fun p => p.1 = s)
      else l.filter (fun p => p.1 = s) := by
  induction l with
  | nil =>
    by_cases h : x.1 = s
    · simp [insertDesc, List.filter, h]
    · simp [insertDesc, List.filter, h]
  | cons y ys ih =>
    unfold insertDesc
    by_cases h : y.1 ≤ x.1
    · rw [if_pos h]
      by_cases hx : x.1 = s
      · simp [List.filter, hx]
      · simp [List.filter, hx]
    · rw [if_neg h]
      by_cases hy : y.1 = s
      · -- y stays in front of the insertion point; since x.1 < y.1 = s,
        -- x cannot also have key s
        have hx : ¬ x.1 = s := by omega
        simp [List.filter, hy, hx, ih]
      · by_cases hx : x.1 = s
        · simp [List.filter, hy, hx, ih]
        · simp [List.filter, hy, hx, ih]

theorem filter_sortDesc (s : Nat) (l : List (Nat × Str)) :
    (sortDesc l).filter (fun p => p.1 = s) = l.filter (fun p => p.1 = s) := by
  induction l with
  | nil => rfl
  | cons x xs ih =>
    have : sortDesc (x :: xs) = insertDesc x (sortDesc xs) := rfl
    rw [this, filter_insertDesc]
    by_cases hx : x.1 = s
    · simp [hx, ih, List.filter]
    · simp [hx, ih, List.filter]

theorem scoredChunks_mem (query : Str) (kb : List Str) :
    ∀ p ∈ scoredChunks query kb, p.1 = chunkScore query p.2 ∧ 0 < p.1 := by
  intro p hp
  unfold scoredChunks at hp
  obtain ⟨c, -, hc⟩ := List.mem_filterMap.1 hp
  by_cases h : 0 < chunkScore query c
  · rw [if_pos h] at hc
    cases hc
    exact ⟨rfl, h⟩
  · rw [if_neg h] at hc
    cases hc

theorem scoredChunks_map_snd (query : Str) (kb : List Str) :
    (scoredChunks query kb).map Prod.snd =
      kb.filter (fun c => 0 < chunkScore query c) := by
  induction kb with
  | nil => rfl
  | cons c cs ih =>
    unfold scoredChunks at ih ⊢
    rw [List.filterMap_cons, List.filter_cons]
    by_cases h : 0 < chunkScore query c
    · rw [if_pos h]
      simp [h, ih]
    · rw [if_neg h]
      simp [h, ih]

theorem chain_key_to_score (query : Str) :
    ∀ l : List (Nat × Str),
      (∀ p ∈ l, p.1 = chunkScore query p.2) →
      l.Chain' (fun a b => b.1 ≤ a.1) →
      l.Chain' (fun a b => chunkScore query b.2 ≤ chunkScore query a.2) := by
  intro l
  induction l with
  | nil => intro _ _; simp
  | cons x xs ih =>
    intro hmem hchain
    rcases xs with _ | ⟨y, ys⟩
    · simp
    · have h1 := (List.chain'_cons.1 hchain).1
      have h2 := (List.chain'_cons.1 hchain).2
      refine List.chain'_cons.2 ⟨?_, ih (fun p hp => hmem p (List.mem_cons_of_mem x hp)) h2⟩
      have hx := hmem x (List.mem_cons_self x _)
      have hy := hmem y (List.mem_cons_of_mem x (List.mem_cons_self y _))
      rw [← hx, ← hy]
      exact h1

set_option maxRecDepth 8000 in
/-- Claim C8: for every query and knowledge base, the keyword fallback
scores each chunk as the summed case-insensitive substring-occurrence
counts of the query's words longer than 3 characters (this is the
definition of `chunkScore`, from rag_system.py lines 318-325), and its
candidate list keeps exactly the chunks with nonzero score sorted by
descending score with ties in original chunk order (a stable sort),
retaining at most `top_k * 2` of them.  Stated as: the candidates are at
most `top_k * 2`, all have positive score, scores are descending, the
sorted list is a permutation of the nonzero-score chunks in knowledge-base
order, and for every score value the equal-score subsequence equals the
original-order subsequence (stability). -/
theorem c8_keyword_fallback_candidates (query : Str) (kb : List Str)
    (topK : Nat) :
    (fallbackRelevant query kb topK).length ≤ topK * 2 ∧
    (∀ c ∈ fallbackRelevant query kb topK, 0 < chunkScore query c) ∧
    (fallbackRelevant query kb topK).Chain'
      (fun a b => chunkScore query b ≤ chunkScore query a) ∧
    ((sortDesc (scoredChunks query kb)).map Prod.snd).Perm
      (kb.filter (fun c => 0 < chunkScore query c)) ∧
    (∀ s : Nat, (sortDesc (scoredChunks query kb)).filter (fun p => p.1 = s) =
      (scoredChunks query kb).filter (fun p => p.1 = s)) := by
  have hperm := sortDesc_perm (scoredChunks query kb)
  have hmem : ∀ p ∈ sortDesc (scoredChunks query kb),
      p.1 = chunkScore query p.2 ∧ 0 < p.1 :=
    fun p hp => scoredChunks_mem query kb p (hperm.mem_iff.1 hp)
  refine ⟨?_, ?_, ?_, ?_, fun s => filter_sortDesc s (scoredChunks query kb)⟩
  · unfold fallbackRelevant
    rw [List.length_map]
    exact List.length_take_le _ _
  · intro c hc
    unfold fallbackRelevant at hc
    obtain ⟨p, hp, rfl⟩ := List.mem_map.1 hc
    have hp' := List.mem_of_mem_take hp
    have := hmem p hp'
    rw [← this.1]
    exact this.2
  · unfold fallbackRelevant
    rw [List.chain'_map]
    refine chain_key_to_score query _ ?_ ?_
    · intro p hp
      exact (hmem p (List.mem_of_mem_take hp)).1
    · exact (sortDesc_chain (scoredChunks query kb)).take _
  · have h1 := hperm.map Prod.snd
    rw [scoredChunks_map_snd] at h1
    exact h1

/-- Witness for C8 at a concrete query and knowledge base. -/
theorem c8_witness :
    0 < chunkScore "vitamins folic acid".toList
      "Folic acid is important.".toList :=
  (c8_keyword_fallback_candidates "vitamins folic acid".toList
    ["Folic acid is important.".toList, "Exercise moderately.".toList]
    1).2.1 "Folic acid is important.".toList (by decide)

/-! ### Lemmas relating the packing loop to the spec-level assembler -/

theorem fullFitCount_cons (count : Str → Nat) (avail cur : Int) (c : Str)
    (rest : List Str) :
    fullFitCount count avail cur (c :: rest) =
      if cur + (count c : Int) ≤ avail then
        fullFitCount count avail (cur + (count c : Int)) rest + 1
      else 0 := rfl

theorem truncLoop_eq_specFrom (count : Str → Nat) (split : Str → List Str)
    (avail : Int) :
    ∀ (chunks : List Str) (cur : Int) (acc : Str),
      truncLoop count split avail cur acc chunks =
        specAssembleFrom count split avail cur acc chunks := by
  intro chunks
  induction chunks with
  | nil => intro cur acc; rfl
  | cons c rest ih =>
    intro cur acc
    have hL : truncLoop count split avail cur acc (c :: rest) =
        if cur + (count c : Int) ≤ avail then
          truncLoop count split avail (cur + (count c : Int))
            (appendCtx acc c) rest
        else
          if 50 < avail - cur then
            appendCtx acc (trimPartial split ((avail - cur) * 4).toNat c)
          else acc := rfl
    by_cases h : cur + (count c : Int) ≤ avail
    · rw [hL, if_pos h, ih]
      unfold specAssembleFrom
      rw [fullFitCount_cons, if_pos h]
      simp only [List.take_succ_cons, List.drop_succ_cons, List.foldl_cons,
        List.map_cons, List.sum_cons, Nat.cast_add, add_assoc]
    · rw [hL, if_neg h]
      unfold specAssembleFrom
      rw [fullFitCount_cons, if_neg h]
      simp only [List.take_zero, List.drop_zero, List.map_nil, List.sum_nil,
        List.foldl_nil, Nat.cast_zero, add_zero]

theorem specAssemble_eq_from (count : Str → Nat) (split : Str → List Str)
    (avail : Int) (chunks : List Str) :
    specAssemble count split avail chunks =
      specAssembleFrom count split avail 0 [] chunks := by
  unfold specAssemble specAssembleFrom
  simp only [zero_add]

set_option maxRecDepth 8000 in
/-- Claim C6: when the available token budget is positive,
`truncate_context` behaves exactly as the claimed greedy packing
(`specAssemble`, modelled from the spec's wording): it iterates candidate
chunks in order, appending each in full (blank-line separated) while its
token count fits the remaining budget; at the first chunk that does not
fully fit it appends a partial chunk only if more than 50 tokens remain
(truncated to `remaining_tokens * 4` characters and trimmed to the last
complete sentence when more than one remains), and then stops,
considering no further chunks.  Holds for every token counter and
sentence splitter. -/
theorem c6_greedy_packing (count : Str → Nat) (split : Str → List Str)
    (maxCtx : Int) (chunks : List Str) (query sysPrompt : Str)
    (hpos : 0 < maxCtx - (count sysPrompt : Int) - (count query : Int) - 500) :
    truncateContext count split maxCtx chunks query sysPrompt =
      specAssemble count split
        (maxCtx - (count sysPrompt : Int) - (count query : Int) - 500)
        chunks := by
  unfold truncateContext
  by_cases hc : chunks = []
  · subst hc
    rw [if_pos rfl, specAssemble_eq_from]
    rfl
  · rw [if_neg hc, if_neg (by omega)]
    rw [truncLoop_eq_specFrom, specAssemble_eq_from]

/-- Witness for C6 on a concrete budget and chunk list exercising both
the full-chunk and the partial-chunk arms. -/
theorem c6_witness :
    truncateContext countTokApprox splitPunct 700
      ["first chunk sentence one. first chunk sentence two.".toList,
       (List.replicate 300 'z'),
       "never reached".toList]
      "query words".toList "sys".toList =
      specAssemble countTokApprox splitPunct
        (700 - (countTokApprox "sys".toList : Int) -
          (countTokApprox "query words".toList : Int) - 500)
        ["first chunk sentence one. first chunk sentence two.".toList,
         (List.replicate 300 'z'),
         "never reached".toList] :=
  c6_greedy_packing countTokApprox splitPunct 700
    ["first chunk sentence one. first chunk sentence two.".toList,
     (List.replicate 300 'z'),
     "never reached".toList]
    "query words".toList "sys".toList (by decide)

/-! ### Non-emptiness of the packed context (claim C2) -/

theorem appendCtx_ne_nil_left (acc c : Str) (h : acc ≠ []) :
    appendCtx acc c ≠ [] := by
  unfold appendCtx
  rw [if_neg h]
  simp [h]

theorem truncLoop_ne_nil (count : Str → Nat) (split : Str → List Str)
    (avail : Int) :
    ∀ (chunks : List Str) (cur : Int) (acc : Str), acc ≠ [] →
      truncLoop count split avail cur acc chunks ≠ [] := by
  intro chunks
  induction chunks with
  | nil => intro cur acc h; exact h
  | cons c rest ih =>
    intro cur acc h
    have hL : truncLoop count split avail cur acc (c :: rest) =
        if cur + (count c : Int) ≤ avail then
          truncLoop count split avail (cur + (count c : Int))
            (appendCtx acc c) rest
        else
          if 50 < avail - cur then
            appendCtx acc (trimPartial split ((avail - cur) * 4).toNat c)
          else acc := rfl
    rw [hL]
    by_cases hfit : cur + (count c : Int) ≤ avail
    · rw [if_pos hfit]
      exact ih _ _ (appendCtx_ne_nil_left acc c h)
    · rw [if_neg hfit]
      by_cases hrem : 50 < avail - cur
      · rw [if_pos hrem]
        exact appendCtx_ne_nil_left acc _ h
      · rw [if_neg hrem]
        exact h

theorem truncateContext_ne_nil (count : Str → Nat) (split : Str → List Str)
    (maxCtx : Int) (chunks : List Str) (query sysPrompt : Str)
    (hne : chunks ≠ []) (hhead : chunks.headD [] ≠ [])
    (hbudget : maxCtx - (count sysPrompt : Int) - (count query : Int) - 500 ≤ 0 ∨
      (count (chunks.headD []) : Int) ≤
        maxCtx - (count sysPrompt : Int) - (count query : Int) - 500) :
    truncateContext count split maxCtx chunks query sysPrompt ≠ [] := by
  unfold truncateContext
  rw [if_neg hne]
  by_cases hav : maxCtx - (count sysPrompt : Int) - (count query : Int) - 500 ≤ 0
  · rw [if_pos hav]
    intro htake
    rcases List.take_eq_nil_iff.1 htake with h | h
    all_goals first
      | exact absurd h (by decide)
      | exact hhead h
  · rw [if_neg hav]
    cases chunks with
    | nil => exact absurd rfl hne
    | cons c rest =>
      have hc : c ≠ [] := hhead
      have hfit : (0 : Int) + (count c : Int) ≤
          maxCtx - (count sysPrompt : Int) - (count query : Int) - 500 := by
        rcases hbudget with h | h
        · exact absurd h hav
        · simpa using h
      have hL : truncLoop count split
          (maxCtx - (count sysPrompt : Int) - (count query : Int) - 500)
          0 [] (c :: rest) =
          truncLoop count split
            (maxCtx - (count sysPrompt : Int) - (count query : Int) - 500)
            (0 + (count c : Int)) (appendCtx [] c) rest := by
        conv_lhs => rw [show truncLoop count split
          (maxCtx - (count sysPrompt : Int) - (count query : Int) - 500)
          0 [] (c :: rest) =
          if (0 : Int) + (count c : Int) ≤
              maxCtx - (count sysPrompt : Int) - (count query : Int) - 500 then
            truncLoop count split
              (maxCtx - (count sysPrompt : Int) - (count query : Int) - 500)
              (0 + (count c : Int)) (appendCtx [] c) rest
          else
            if 50 < maxCtx - (count sysPrompt : Int) - (count query : Int) -
                500 - 0 then
              appendCtx []
                (trimPartial split
                  ((maxCtx - (count sysPrompt : Int) - (count query : Int) -
                    500 - 0) * 4).toNat c)
            else [] from rfl]
        rw [if_pos hfit]
      rw [hL]
      have happ : appendCtx [] c = c := rfl
      rw [happ]
      exact truncLoop_ne_nil count split _ rest _ c hc

theorem pyGet_mem (kb : List Str) (i : Int) (h0 : 0 ≤ i)
    (hlt : i < (kb.length : Int)) : pyGet kb i ∈ kb := by
  unfold pyGet
  rw [if_pos ⟨h0, hlt⟩]
  have hn : i.toNat < kb.length := by omega
  rw [List.getD_eq_getElem kb [] hn]
  exact List.getElem_mem hn

theorem relevantWithFallback_mem (threshold : ℚ) (kb : List Str)
    (res : List (ℚ × Int))
    (hidx : ∀ p ∈ res, p.2 = -1 ∨ (0 ≤ p.2 ∧ p.2 < (kb.length : Int))) :
    ∀ c ∈ relevantWithFallback threshold kb res, c ∈ kb := by
  intro c hc
  unfold relevantWithFallback at hc
  have hraw : ∀ d ∈ relevantRaw threshold kb res, d ∈ kb := by
    intro d hd
    unfold relevantRaw at hd
    obtain ⟨p, hp, hpd⟩ := List.mem_filterMap.1 hd
    by_cases hcond : p.2 ≠ -1 ∧ threshold ≤ p.1
    · rw [if_pos hcond] at hpd
      cases hpd
      rcases hidx p hp with h | h
      · exact absurd h hcond.1
      · exact pyGet_mem kb p.2 h.1 h.2
    · rw [if_neg hcond] at hpd
      cases hpd
  by_cases hcond : relevantRaw threshold kb res = [] ∧ res ≠ [] ∧
      (res.headD (0, -1)).2 ≠ -1
  · rw [if_pos hcond] at hc
    simp only [List.mem_singleton] at hc
    subst hc
    cases res with
    | nil => exact absurd rfl hcond.2.1
    | cons p ps =>
      have hp : (p :: ps).headD ((0 : ℚ), (-1 : Int)) = p := rfl
      rw [hp]
      rw [hp] at hcond
      rcases hidx p (List.mem_cons_self p ps) with h | h
      · exact absurd h hcond.2.2
      · exact pyGet_mem kb p.2 h.1 h.2
  · rw [if_neg hcond] at hc
    exact hraw c hc

theorem relevantWithFallback_ne_nil (threshold : ℚ) (kb : List Str)
    (res : List (ℚ × Int)) (hres : res ≠ [])
    (hhead : (res.headD (0, -1)).2 ≠ -1) :
    relevantWithFallback threshold kb res ≠ [] := by
  unfold relevantWithFallback
  by_cases hcond : relevantRaw threshold kb res = [] ∧ res ≠ [] ∧
      (res.headD (0, -1)).2 ≠ -1
  · rw [if_pos hcond]
    simp
  · rw [if_neg hcond]
    intro hnil
    exact hcond ⟨hnil, hres, hhead⟩

set_option maxRecDepth 10000 in
/-- Claim C2, counterexample: a knowledge base with one 200-character
chunk, a non-empty FAISS index, and a successful search whose single hit
passes the threshold — yet `find_relevant_context` returns the empty
string.  With `MAX_CONTEXT_TOKENS = 600` (the value is environment
configured, settings.py line 41) the repository's fallback token counter
leaves an available budget of 46 tokens for the `"hi"` query: the
50-token chunk does not fit and 46 is at or below the 50-token floor for
a partial chunk, so the packing loop emits nothing (token_manager.py
lines 94-114).  The same gap arises at the default 3000-token budget with
a ~9600-character query. -/
theorem c2_counterexample :
    (([List.replicate 200 'z'] : List Str) ≠ []) ∧ (1 : Nat) ≠ 0 ∧
    findRelevantContext countTokApprox splitPunct 600 (Rat.mk' 1 10)
      [List.replicate 200 'z'] 1 (.ok [(1, 0)]) "hi".toList 5 = [] := by
  refine ⟨by decide, by decide, ?_⟩
  decide

/-- Claim C2 as amended: with a non-empty knowledge base of non-empty
chunks, a non-empty FAISS index and a successful search whose results
carry valid ids (head id real), `find_relevant_context` selects a
non-empty candidate list — falling back to the single best-scoring chunk
when nothing meets the threshold — and returns a non-empty context
provided the token budget is not in the gap `(0, 50]` short of the first
selected chunk: that is, whenever `available ≤ 0` or the first selected
chunk fits the available budget.  (The counterexample shows the gap is
real: with `0 < available ≤ 50` and an oversized first chunk the result
is empty.) -/
theorem c2_nonempty_context (count : Str → Nat) (split : Str → List Str)
    (maxCtx : Int) (threshold : ℚ) (kb : List Str) (ntotal : Nat)
    (res : List (ℚ × Int)) (query : Str) (topK : Nat)
    (hkb : kb ≠ []) (hnt : ntotal ≠ 0)
    (hchunks : ∀ c ∈ kb, c ≠ [])
    (hres : res ≠ [])
    (hidx : ∀ p ∈ res, p.2 = -1 ∨ (0 ≤ p.2 ∧ p.2 < (kb.length : Int)))
    (hhead : (res.headD (0, -1)).2 ≠ -1)
    (hbudget : maxCtx - (count sysPromptL : Int) - (count query : Int) - 500 ≤ 0 ∨
      (count ((relevantWithFallback threshold kb res).headD []) : Int) ≤
        maxCtx - (count sysPromptL : Int) - (count query : Int) - 500) :
    findRelevantContext count split maxCtx threshold kb ntotal (.ok res)
      query topK ≠ [] := by
  unfold findRelevantContext
  rw [if_neg (by simp [hkb, hnt])]
  have hne := relevantWithFallback_ne_nil threshold kb res hres hhead
  have hheadne : (relevantWithFallback threshold kb res).headD [] ≠ [] := by
    cases hrel : relevantWithFallback threshold kb res with
    | nil => exact absurd hrel hne
    | cons c cs =>
      have hcmem : c ∈ relevantWithFallback threshold kb res := by
        rw [hrel]; exact List.mem_cons_self c cs
      have := relevantWithFallback_mem threshold kb res hidx c hcmem
      exact hchunks c this
  exact truncateContext_ne_nil count split maxCtx _ query sysPromptL hne
    hheadne hbudget

set_option maxRecDepth 10000 in
/-- Witness for C2's amended statement on a small healthy budget. -/
theorem c2_witness :
    findRelevantContext countTokApprox splitPunct 3000 (Rat.mk' 1 10)
      ["folic acid helps".toList] 1 (.ok [(1, 0)]) "hi".toList 5 ≠ [] :=
  c2_nonempty_context countTokApprox splitPunct 3000 (Rat.mk' 1 10)
    ["folic acid helps".toList] 1 [(1, 0)] "hi".toList 5
    (by decide) (by decide) (by decide) (by decide) (by decide) (by decide)
    (Or.inr (by decide))

/-! ### Stage invariants of clean_text: whitespace collapsing -/

theorem wsOnly_cons {c : Char} {l : Str} :
    wsOnly (c :: l) ↔ (pyIsSpace c = true → c = ' ') ∧ wsOnly l := by
  unfold wsOnly
  exact List.forall_mem_cons

theorem collapseWsAux_wsOnly : ∀ (l : Str) (b : Bool),
    wsOnly (collapseWsAux b l) := by
  intro l
  induction l with
  | nil => intro b; intro c hc; simp [collapseWsAux] at hc
  | cons c rest ih =>
    intro b
    unfold collapseWsAux
    by_cases hc : pyIsSpace c = true
    · rw [if_pos hc]
      cases b with
      | true => exact ih true
      | false =>
        rw [if_neg (by simp)]
        exact wsOnly_cons.2 ⟨fun _ => rfl, ih true⟩
    · rw [if_neg hc]
      exact wsOnly_cons.2 ⟨fun h => absurd h hc, ih false⟩

theorem collapseWsAux_true_head : ∀ (l : Str) (c : Char),
    (collapseWsAux true l).head? = some c → pyIsSpace c = false := by
  intro l
  induction l with
  | nil => intro c h; simp [collapseWsAux] at h
  | cons d rest ih =>
    intro c h
    unfold collapseWsAux at h
    by_cases hd : pyIsSpace d = true
    · rw [if_pos hd] at h
      exact ih c h
    · rw [if_neg hd] at h
      simp only [List.head?_cons, Option.some.injEq] at h
      subst h
      simpa using hd

theorem collapseWsAux_noWW : ∀ (l : Str) (b : Bool),
    noWW (collapseWsAux b l) := by
  intro l
  induction l with
  | nil => intro b; simp [collapseWsAux, noWW]
  | cons c rest ih =>
    intro b
    unfold collapseWsAux
    by_cases hc : pyIsSpace c = true
    · rw [if_pos hc]
      cases b with
      | true => exact ih true
      | false =>
        rw [if_neg (by simp)]
        refine List.chain'_cons'.2 ⟨?_, ih true⟩
        intro d hd
        intro hcon
        have := collapseWsAux_true_head rest d hd
        rw [this] at hcon
        exact absurd hcon.2 (by simp)
    · rw [if_neg hc]
      refine List.chain'_cons'.2 ⟨?_, ih false⟩
      intro d _
      intro hcon
      exact hc hcon.1

theorem collapseWs_wsOnly (l : Str) : wsOnly (collapseWs l) :=
  collapseWsAux_wsOnly l false

theorem collapseWs_noWW (l : Str) : noWW (collapseWs l) :=
  collapseWsAux_noWW l false

/-! ### Stage invariants of clean_text: the two space-insertion passes -/

theorem upper_not_lower {c : Char} (h : c.isUpper = true) :
    c.isLower = false := by
  simp only [Char.isUpper, Bool.and_eq_true, decide_eq_true_eq, ge_iff_le] at h
  simp only [Char.isLower, Bool.and_eq_false_iff, decide_eq_false_iff_not,
    ge_iff_le]
  left
  intro hc
  have h1 : c.val.toNat ≤ 90 :=
    UInt32.toNat_le_of_le (by norm_num [UInt32.size]) h.2
  have h2 : (97 : Nat) ≤ c.val.toNat :=
    UInt32.le_toNat_of_le (by norm_num [UInt32.size]) hc
  omega

theorem upper_ne_period {c : Char} (h : c.isUpper = true) : c ≠ '.' := by
  intro he
  subst he
  exact absurd h (by decide)

theorem fixLowerUpper_head : ∀ l : Str,
    (fixLowerUpper l).head? = l.head? := by
  intro l
  induction l using fixLowerUpper.induct with
  | case1 => rfl
  | case2 c => rfl
  | case3 a b rest hab ih => simp [fixLowerUpper, hab]
  | case4 a b rest hab ih =>
    rw [show fixLowerUpper (a :: b :: rest) =
      a :: fixLowerUpper (b :: rest) from by simp [fixLowerUpper, hab]]
    rfl

theorem fixPeriodUpper_head : ∀ l : Str,
    (fixPeriodUpper l).head? = l.head? := by
  intro l
  induction l using fixPeriodUpper.induct with
  | case1 => rfl
  | case2 c => rfl
  | case3 a b rest hab ih => simp [fixPeriodUpper, hab]
  | case4 a b rest hab ih =>
    rw [show fixPeriodUpper (a :: b :: rest) =
      a :: fixPeriodUpper (b :: rest) from by simp [fixPeriodUpper, hab]]
    rfl

theorem fixLowerUpper_wsOnly : ∀ l : Str, wsOnly l →
    wsOnly (fixLowerUpper l) := by
  intro l
  induction l using fixLowerUpper.induct with
  | case1 => intro h; exact h
  | case2 c => intro h; exact h
  | case3 a b rest hab ih =>
    intro h
    rw [show fixLowerUpper (a :: b :: rest) =
      a :: ' ' :: b :: fixLowerUpper rest from by simp [fixLowerUpper, hab]]
    have h1 := wsOnly_cons.1 h
    have h2 := wsOnly_cons.1 h1.2
    refine wsOnly_cons.2 ⟨h1.1, wsOnly_cons.2 ⟨fun _ => rfl,
      wsOnly_cons.2 ⟨h2.1, ih h2.2⟩⟩⟩
  | case4 a b rest hab ih =>
    intro h
    rw [show fixLowerUpper (a :: b :: rest) =
      a :: fixLowerUpper (b :: rest) from by simp [fixLowerUpper, hab]]
    have h1 := wsOnly_cons.1 h
    exact wsOnly_cons.2 ⟨h1.1, ih h1.2⟩

theorem fixPeriodUpper_wsOnly : ∀ l : Str, wsOnly l →
    wsOnly (fixPeriodUpper l) := by
  intro l
  induction l using fixPeriodUpper.induct with
  | case1 => intro h; exact h
  | case2 c => intro h; exact h
  | case3 a b rest hab ih =>
    intro h
    rw [show fixPeriodUpper (a :: b :: rest) =
      a :: ' ' :: b :: fixPeriodUpper rest from by simp [fixPeriodUpper, hab]]
    have h1 := wsOnly_cons.1 h
    have h2 := wsOnly_cons.1 h1.2
    refine wsOnly_cons.2 ⟨h1.1, wsOnly_cons.2 ⟨fun _ => rfl,
      wsOnly_cons.2 ⟨h2.1, ih h2.2⟩⟩⟩
  | case4 a b rest hab ih =>
    intro h
    rw [show fixPeriodUpper (a :: b :: rest) =
      a :: fixPeriodUpper (b :: rest) from by simp [fixPeriodUpper, hab]]
    have h1 := wsOnly_cons.1 h
    exact wsOnly_cons.2 ⟨h1.1, ih h1.2⟩

theorem period_not_lower : ('.' : Char).isLower = false := by decide

theorem fixLowerUpper_noWW : ∀ l : Str, noWW l → noWW (fixLowerUpper l) := by
  intro l
  induction l using fixLowerUpper.induct with
  | case1 => intro h; exact h
  | case2 c => intro h; exact h
  | case3 a b rest hab ih =>
    intro h
    have hab' : a.isLower = true ∧ b.isUpper = true := by simpa using hab
    rw [show fixLowerUpper (a :: b :: rest) =
      a :: ' ' :: b :: fixLowerUpper rest from by simp [fixLowerUpper, hab]]
    have hrest : noWW rest := ((List.chain'_cons.1 h).2).tail
    refine List.chain'_cons.2 ⟨?_, List.chain'_cons.2 ⟨?_,
      List.chain'_cons'.2 ⟨?_, ih hrest⟩⟩⟩
    · intro hcon
      rw [isLower_not_space hab'.1] at hcon
      exact absurd hcon.1 (by simp)
    · intro hcon
      rw [isUpper_not_space hab'.2] at hcon
      exact absurd hcon.2 (by simp)
    · intro d _
      intro hcon
      rw [isUpper_not_space hab'.2] at hcon
      exact absurd hcon.1 (by simp)
  | case4 a b rest hab ih =>
    intro h
    rw [show fixLowerUpper (a :: b :: rest) =
      a :: fixLowerUpper (b :: rest) from by simp [fixLowerUpper, hab]]
    refine List.chain'_cons'.2 ⟨?_, ih (List.chain'_cons.1 h).2⟩
    intro d hd
    rw [fixLowerUpper_head (b :: rest)] at hd
    simp only [List.head?_cons, Option.mem_def, Option.some.injEq] at hd
    subst hd
    exact (List.chain'_cons.1 h).1

theorem fixLowerUpper_noLU : ∀ l : Str, noLU (fixLowerUpper l) := by
  intro l
  induction l using fixLowerUpper.induct with
  | case1 => simp [fixLowerUpper, noLU]
  | case2 c => simp [fixLowerUpper, noLU]
  | case3 a b rest hab ih =>
    have hab' : a.isLower = true ∧ b.isUpper = true := by simpa using hab
    rw [show fixLowerUpper (a :: b :: rest) =
      a :: ' ' :: b :: fixLowerUpper rest from by simp [fixLowerUpper, hab]]
    refine List.chain'_cons.2 ⟨?_, List.chain'_cons.2 ⟨?_,
      List.chain'_cons'.2 ⟨?_, ih⟩⟩⟩
    · intro hcon
      rw [space_not_upper] at hcon
      exact absurd hcon.2 (by simp)
    · intro hcon
      rw [space_not_lower] at hcon
      exact absurd hcon.1 (by simp)
    · intro d _
      intro hcon
      rw [upper_not_lower hab'.2] at hcon
      exact absurd hcon.1 (by simp)
  | case4 a b rest hab ih =>
    rw [show fixLowerUpper (a :: b :: rest) =
      a :: fixLowerUpper (b :: rest) from by simp [fixLowerUpper, hab]]
    refine List.chain'_cons'.2 ⟨?_, ih⟩
    intro d hd
    rw [fixLowerUpper_head (b :: rest)] at hd
    simp only [List.head?_cons, Option.mem_def, Option.some.injEq] at hd
    subst hd
    intro hcon
    rw [hcon.1, hcon.2] at hab
    exact absurd hab (by simp)

theorem fixPeriodUpper_noWW : ∀ l : Str, noWW l →
    noWW (fixPeriodUpper l) := by
  intro l
  induction l using fixPeriodUpper.induct with
  | case1 => intro h; exact h
  | case2 c => intro h; exact h
  | case3 a b rest hab ih =>
    intro h
    have hab' : a = '.' ∧ b.isUpper = true := by simpa using hab
    have ha : a = '.' := hab'.1
    rw [show fixPeriodUpper (a :: b :: rest) =
      a :: ' ' :: b :: fixPeriodUpper rest from by simp [fixPeriodUpper, hab]]
    have hrest : noWW rest := ((List.chain'_cons.1 h).2).tail
    refine List.chain'_cons.2 ⟨?_, List.chain'_cons.2 ⟨?_,
      List.chain'_cons'.2 ⟨?_, ih hrest⟩⟩⟩
    · intro hcon
      rw [ha, period_not_space] at hcon
      exact absurd hcon.1 (by simp)
    · intro hcon
      rw [isUpper_not_space hab'.2] at hcon
      exact absurd hcon.2 (by simp)
    · intro d _
      intro hcon
      rw [isUpper_not_space hab'.2] at hcon
      exact absurd hcon.1 (by simp)
  | case4 a b rest hab ih =>
    intro h
    rw [show fixPeriodUpper (a :: b :: rest) =
      a :: fixPeriodUpper (b :: rest) from by simp [fixPeriodUpper, hab]]
    refine List.chain'_cons'.2 ⟨?_, ih (List.chain'_cons.1 h).2⟩
    intro d hd
    rw [fixPeriodUpper_head (b :: rest)] at hd
    simp only [List.head?_cons, Option.mem_def, Option.some.injEq] at hd
    subst hd
    exact (List.chain'_cons.1 h).1

theorem fixPeriodUpper_noLU : ∀ l : Str, noLU l →
    noLU (fixPeriodUpper l) := by
  intro l
  induction l using fixPeriodUpper.induct with
  | case1 => intro h; exact h
  | case2 c => intro h; exact h
  | case3 a b rest hab ih =>
    intro h
    have hab' : a = '.' ∧ b.isUpper = true := by simpa using hab
    have ha : a = '.' := hab'.1
    rw [show fixPeriodUpper (a :: b :: rest) =
      a :: ' ' :: b :: fixPeriodUpper rest from by simp [fixPeriodUpper, hab]]
    have hrest : noLU rest := ((List.chain'_cons.1 h).2).tail
    refine List.chain'_cons.2 ⟨?_, List.chain'_cons.2 ⟨?_,
      List.chain'_cons'.2 ⟨?_, ih hrest⟩⟩⟩
    · intro hcon
      rw [ha, period_not_lower] at hcon
      exact absurd hcon.1 (by simp)
    · intro hcon
      rw [space_not_lower] at hcon
      exact absurd hcon.1 (by simp)
    · intro d _
      intro hcon
      rw [upper_not_lower hab'.2] at hcon
      exact absurd hcon.1 (by simp)
  | case4 a b rest hab ih =>
    intro h
    rw [show fixPeriodUpper (a :: b :: rest) =
      a :: fixPeriodUpper (b :: rest) from by simp [fixPeriodUpper, hab]]
    refine List.chain'_cons'.2 ⟨?_, ih (List.chain'_cons.1 h).2⟩
    intro d hd
    rw [fixPeriodUpper_head (b :: rest)] at hd
    simp only [List.head?_cons, Option.mem_def, Option.some.injEq] at hd
    subst hd
    exact (List.chain'_cons.1 h).1

theorem fixPeriodUpper_noPU : ∀ l : Str, noPU (fixPeriodUpper l) := by
  intro l
  induction l using fixPeriodUpper.induct with
  | case1 => simp [fixPeriodUpper, noPU]
  | case2 c => simp [fixPeriodUpper, noPU]
  | case3 a b rest hab ih =>
    have hab' : a = '.' ∧ b.isUpper = true := by simpa using hab
    rw [show fixPeriodUpper (a :: b :: rest) =
      a :: ' ' :: b :: fixPeriodUpper rest from by simp [fixPeriodUpper, hab]]
    refine List.chain'_cons.2 ⟨?_, List.chain'_cons.2 ⟨?_,
      List.chain'_cons'.2 ⟨?_, ih⟩⟩⟩
    · intro hcon
      rw [space_not_upper] at hcon
      exact absurd hcon.2 (by simp)
    · intro hcon
      exact absurd hcon.1 (by decide)
    · intro d _
      intro hcon
      exact upper_ne_period hab'.2 hcon.1
  | case4 a b rest hab ih =>
    rw [show fixPeriodUpper (a :: b :: rest) =
      a :: fixPeriodUpper (b :: rest) from by simp [fixPeriodUpper, hab]]
    refine List.chain'_cons'.2 ⟨?_, ih⟩
    intro d hd
    rw [fixPeriodUpper_head (b :: rest)] at hd
    simp only [List.head?_cons, Option.mem_def, Option.some.injEq] at hd
    subst hd
    intro hcon
    rw [hcon.1, hcon.2] at hab
    simp at hab

/-! ### Identity lemmas: each clean_text pass fixes already-clean text -/

theorem collapseWsAux_id : ∀ l : Str, wsOnly l → noWW l →
    (collapseWsAux false l = l ∧
     (headOk l → collapseWsAux true l = l)) := by
  intro l
  induction l with
  | nil => intro _ _; exact ⟨rfl, fun _ => rfl⟩
  | cons c rest ih =>
    intro hws hww
    have hws' := wsOnly_cons.1 hws
    have ihr := ih hws'.2 hww.tail
    by_cases hc : pyIsSpace c = true
    · have hcsp : c = ' ' := hws'.1 hc
      have hhead : headOk rest := by
        intro d hd
        have hpair := (List.chain'_cons'.1 hww).1 d hd
        by_contra hd'
        exact hpair ⟨hc, by simpa using hd'⟩
      constructor
      · rw [show collapseWsAux false (c :: rest) =
          ' ' :: collapseWsAux true rest from by
            simp [collapseWsAux, hc]]
        rw [ihr.2 hhead, hcsp]
      · intro hok
        have := hok c rfl
        rw [this] at hc
        exact absurd hc (by simp)
    · have hL : collapseWsAux false (c :: rest) =
          c :: collapseWsAux false rest := by
        simp [collapseWsAux, hc]
      have hL' : collapseWsAux true (c :: rest) =
          c :: collapseWsAux false rest := by
        simp [collapseWsAux, hc]
      exact ⟨by rw [hL, ihr.1], fun _ => by rw [hL', ihr.1]⟩

theorem collapseWs_id {l : Str} (hws : wsOnly l) (hww : noWW l) :
    collapseWs l = l :=
  (collapseWsAux_id l hws hww).1

theorem removePageMarkers_id {l : Str} (h : '\n' ∉ l) :
    removePageMarkers l = l := by
  unfold removePageMarkers
  induction l with
  | nil => rfl
  | cons c rest ih =>
    have hc : c ≠ '\n' := fun he => h (he ▸ List.mem_cons_self c rest)
    have hrest : '\n' ∉ rest := fun hm => h (List.mem_cons_of_mem c hm)
    rw [show rpmAux 0 (c :: rest) =
      if c = '\n' then
        match pageMarkerTail rest with
        | some rem => '\n' :: '\n' :: rpmAux (rest.length - rem.length) rest
        | none => c :: rpmAux 0 rest
      else c :: rpmAux 0 rest from rfl]
    rw [if_neg hc, ih hrest]

theorem collapseNL3_id {l : Str} (h : '\n' ∉ l) : collapseNL3 l = l := by
  unfold collapseNL3
  induction l with
  | nil => rfl
  | cons c rest ih =>
    have hc : c ≠ '\n' := fun he => h (he ▸ List.mem_cons_self c rest)
    have hrest : '\n' ∉ rest := fun hm => h (List.mem_cons_of_mem c hm)
    rw [show cnlAux 0 (c :: rest) =
      if c = '\n' then cnlAux 1 rest
      else emitNLRun 0 ++ c :: cnlAux 0 rest from rfl]
    rw [if_neg hc, ih hrest]
    rfl

theorem fixLowerUpper_id : ∀ l : Str, noLU l → fixLowerUpper l = l := by
  intro l
  induction l using fixLowerUpper.induct with
  | case1 => intro _; rfl
  | case2 c => intro _; rfl
  | case3 a b rest hab ih =>
    intro h
    have hab' : a.isLower = true ∧ b.isUpper = true := by simpa using hab
    exact absurd hab' (List.chain'_cons.1 h).1
  | case4 a b rest hab ih =>
    intro h
    rw [show fixLowerUpper (a :: b :: rest) =
      a :: fixLowerUpper (b :: rest) from by simp [fixLowerUpper, hab]]
    rw [ih (List.chain'_cons.1 h).2]

theorem fixPeriodUpper_id : ∀ l : Str, noPU l → fixPeriodUpper l = l := by
  intro l
  induction l using fixPeriodUpper.induct with
  | case1 => intro _; rfl
  | case2 c => intro _; rfl
  | case3 a b rest hab ih =>
    intro h
    have hab' : a = '.' ∧ b.isUpper = true := by simpa using hab
    exact absurd hab' (List.chain'_cons.1 h).1
  | case4 a b rest hab ih =>
    intro h
    rw [show fixPeriodUpper (a :: b :: rest) =
      a :: fixPeriodUpper (b :: rest) from by simp [fixPeriodUpper, hab]]
    rw [ih (List.chain'_cons.1 h).2]

/-! ### Strip lemmas -/

theorem dropWhile_head_not (p : Char → Bool) (l : Str) :
    ∀ c ∈ (l.dropWhile p).head?, p c = false := by
  induction l with
  | nil => intro c hc; simp at hc
  | cons a rest ih =>
    intro c hc
    by_cases ha : p a = true
    · rw [List.dropWhile_cons_of_pos ha] at hc
      exact ih c hc
    · rw [List.dropWhile_cons_of_neg (by simpa using ha)] at hc
      simp only [List.head?_cons, Option.mem_def, Option.some.injEq] at hc
      subst hc
      simpa using ha

theorem dropWhile_id_of_headOk (p : Char → Bool) (l : Str)
    (h : ∀ c ∈ l.head?, p c = false) : l.dropWhile p = l := by
  cases l with
  | nil => rfl
  | cons c rest =>
    have hc := h c rfl
    rw [List.dropWhile_cons_of_neg (by simp [hc])]

theorem stripL_id {l : Str} (h1 : headOk l) (h2 : lastOk l) :
    stripL l = l := by
  unfold stripL
  rw [dropWhile_id_of_headOk pyIsSpace l h1]
  rw [dropWhile_id_of_headOk pyIsSpace l.reverse (by
    intro c hc
    rw [List.head?_reverse] at hc
    exact h2 c hc)]
  exact List.reverse_reverse l

theorem stripL_isInfix (l : Str) : stripL l <:+: l := by
  unfold stripL
  have h1 : l.dropWhile pyIsSpace <:+ l :=
    ⟨l.takeWhile pyIsSpace, List.takeWhile_append_dropWhile pyIsSpace l⟩
  obtain ⟨s, hs⟩ := h1
  have h2 : (l.dropWhile pyIsSpace).reverse.dropWhile pyIsSpace <:+
      (l.dropWhile pyIsSpace).reverse :=
    ⟨(l.dropWhile pyIsSpace).reverse.takeWhile pyIsSpace,
      List.takeWhile_append_dropWhile pyIsSpace (l.dropWhile pyIsSpace).reverse⟩
  obtain ⟨t, ht⟩ := h2
  refine ⟨s, t.reverse, ?_⟩
  have hrev : (List.dropWhile pyIsSpace
      (List.dropWhile pyIsSpace l).reverse).reverse ++ t.reverse =
      List.dropWhile pyIsSpace l := by
    have := congrArg List.reverse ht
    simpa [List.reverse_append] using this
  rw [List.append_assoc, hrev, hs]

theorem stripL_lastOk (l : Str) : lastOk (stripL l) := by
  intro c hc
  unfold stripL at hc
  rw [List.getLast?_reverse] at hc
  exact dropWhile_head_not pyIsSpace _ c hc

theorem stripL_headOk (l : Str) : headOk (stripL l) := by
  intro c hc
  unfold stripL at hc
  rw [List.head?_reverse] at hc
  -- c is the last element of `dropWhile pyIsSpace (reverse (dropWhile
  -- pyIsSpace l))`, which is a suffix of `reverse (dropWhile pyIsSpace
  -- l)`, whose last element is the head of `dropWhile pyIsSpace l`
  have hsuf : (l.dropWhile pyIsSpace).reverse.dropWhile pyIsSpace <:+
      (l.dropWhile pyIsSpace).reverse :=
    ⟨(l.dropWhile pyIsSpace).reverse.takeWhile pyIsSpace,
      List.takeWhile_append_dropWhile pyIsSpace (l.dropWhile pyIsSpace).reverse⟩
  obtain ⟨t, ht⟩ := hsuf
  cases hd : (l.dropWhile pyIsSpace).reverse.dropWhile pyIsSpace with
  | nil => rw [hd] at hc; simp at hc
  | cons x xs =>
    rw [hd] at hc ht
    have hlast : ((l.dropWhile pyIsSpace).reverse).getLast? =
        (x :: xs).getLast? := by
      rw [← ht]
      exact List.getLast?_append_cons t x xs
    rw [List.getLast?_reverse] at hlast
    exact dropWhile_head_not pyIsSpace l c (hlast.trans hc)

/-! ### clean_text: invariants and fixpoint -/

theorem cleanTextL_chunkGood (l : Str) : ChunkGood (cleanTextL l) := by
  unfold cleanTextL
  have hws0 : wsOnly (collapseWs l) := collapseWs_wsOnly l
  have hww0 : noWW (collapseWs l) := collapseWs_noWW l
  rw [removePageMarkers_id (wsOnly_no_nl hws0)]
  have hws2 : wsOnly (fixLowerUpper (collapseWs l)) :=
    fixLowerUpper_wsOnly _ hws0
  have hww2 : noWW (fixLowerUpper (collapseWs l)) :=
    fixLowerUpper_noWW _ hww0
  have hlu2 : noLU (fixLowerUpper (collapseWs l)) := fixLowerUpper_noLU _
  have hws3 : wsOnly (fixPeriodUpper (fixLowerUpper (collapseWs l))) :=
    fixPeriodUpper_wsOnly _ hws2
  have hww3 : noWW (fixPeriodUpper (fixLowerUpper (collapseWs l))) :=
    fixPeriodUpper_noWW _ hww2
  have hlu3 : noLU (fixPeriodUpper (fixLowerUpper (collapseWs l))) :=
    fixPeriodUpper_noLU _ hlu2
  have hpu3 : noPU (fixPeriodUpper (fixLowerUpper (collapseWs l))) :=
    fixPeriodUpper_noPU _
  rw [collapseNL3_id (wsOnly_no_nl hws3)]
  have hinf := stripL_isInfix (fixPeriodUpper (fixLowerUpper (collapseWs l)))
  exact ⟨wsOnly_of_isInfix hws3 hinf, chain'_of_isInfix hww3 hinf,
    chain'_of_isInfix hlu3 hinf, chain'_of_isInfix hpu3 hinf,
    stripL_headOk _, stripL_lastOk _⟩

theorem cleanTextL_id {l : Str} (h : ChunkGood l) : cleanTextL l = l := by
  obtain ⟨hws, hww, hlu, hpu, hh, hl⟩ := h
  unfold cleanTextL
  rw [collapseWs_id hws hww, removePageMarkers_id (wsOnly_no_nl hws),
    fixLowerUpper_id l hlu, fixPeriodUpper_id l hpu,
    collapseNL3_id (wsOnly_no_nl hws), stripL_id hh hl]

/-! ### Paragraph splitting of cleaned text (claim C3) -/

theorem splitSeq2NL_no_nl : ∀ l : Str, '\n' ∉ l → splitSeq2NL l = [l] := by
  intro l
  induction l using splitSeq2NL.induct with
  | case1 => intro _; rfl
  | case2 c => intro _; rfl
  | case3 c d rest hcd ih =>
    intro h
    exact absurd (hcd.1 ▸ List.mem_cons_self c _) h
  | case4 c d rest hcd ih =>
    intro h
    have hrest : '\n' ∉ d :: rest := fun hm => h (List.mem_cons_of_mem c hm)
    rw [show splitSeq2NL (c :: d :: rest) =
      (splitSeq2NL (d :: rest)).modifyHead (c :: ·) from by
        simp only [splitSeq2NL, if_neg hcd]]
    rw [ih hrest]
    rfl

theorem paragraphsOf_clean {l : Str} (hnn : '\n' ∉ l) (hho : headOk l)
    (hlo : lastOk l) (hne : l ≠ []) : paragraphsOf l = [l] := by
  unfold paragraphsOf
  rw [splitSeq2NL_no_nl l hnn]
  rw [List.map_singleton, stripL_id hho hlo]
  simp [List.filter, hne]

theorem cbp_single_large (split : Str → List Str) (cfg : ChunkCfg)
    (l : Str) (hpar : paragraphsOf l = [l])
    (hbig : cfg.maxSize < l.length) :
    chunkByParagraphsL split cfg l = chunkBySentencesL split cfg l := by
  unfold chunkByParagraphsL
  rw [hpar]
  show cbpFinal cfg (cbpStep split cfg ⟨[], [], 0⟩ l) = _
  unfold cbpStep
  rw [if_pos hbig]
  rw [if_neg (by simp)]
  unfold cbpFinal
  simp

/-- Claim C3: `clean_text` collapses every whitespace run (newlines
included) into a single space, so its output contains no newline;
consequently, inside `smart_chunk`, splitting the cleaned text on blank
lines yields exactly the one paragraph (the cleaned text itself, when
non-empty), and every cleaned text longer than `max_chunk_size` is
handed entirely to the sentence-level strategy: on such input
`chunk_by_paragraphs` equals `chunk_by_sentences`.  Holds for every
sentence splitter and configuration. -/
theorem c3_clean_text_single_paragraph (split : Str → List Str)
    (cfg : ChunkCfg) (t : Str) :
    '\n' ∉ cleanTextL t ∧
    (cleanTextL t ≠ [] → paragraphsOf (cleanTextL t) = [cleanTextL t]) ∧
    (cfg.maxSize < (cleanTextL t).length →
      chunkByParagraphsL split cfg (cleanTextL t) =
        chunkBySentencesL split cfg (cleanTextL t)) := by
  obtain ⟨hws, hww, hlu, hpu, hh, hl⟩ := cleanTextL_chunkGood t
  have hnn := wsOnly_no_nl hws
  refine ⟨hnn, fun hne => paragraphsOf_clean hnn hh hl hne, fun hbig => ?_⟩
  refine cbp_single_large split cfg (cleanTextL t) ?_ hbig
  refine paragraphsOf_clean hnn hh hl ?_
  intro he
  rw [he] at hbig
  simp at hbig

/-- Witness for C3 on a concrete newline-containing text whose cleaned
form is longer than the maximum chunk size. -/
theorem c3_witness :
    '\n' ∉ cleanTextL "abc\ndef".toList ∧
    paragraphsOf (cleanTextL "abc\ndef".toList) =
      [cleanTextL "abc\ndef".toList] ∧
    chunkByParagraphsL splitPunct ⟨2, 0, 1⟩ (cleanTextL "abc\ndef".toList) =
      chunkBySentencesL splitPunct ⟨2, 0, 1⟩ (cleanTextL "abc\ndef".toList) := by
  obtain ⟨h1, h2, h3⟩ :=
    c3_clean_text_single_paragraph splitPunct ⟨2, 0, 1⟩ "abc\ndef".toList
  exact ⟨h1, h2 (by decide), h3 (by decide)⟩

/-! ### Segments of the fallback sentence splitter (claim C9) -/

theorem spAux_ne_nil : ∀ (l : Str) (b : Bool), spAux b l ≠ [] := by
  intro l
  induction l with
  | nil => intro b; simp [spAux]
  | cons c rest ih =>
    intro b
    unfold spAux
    by_cases hc : isSentPunct c = true
    · rw [if_pos hc]
      cases b with
      | true => exact ih true
      | false => simp
    · rw [if_neg hc]
      cases h : spAux false rest with
      | nil => exact absurd h (ih false)
      | cons x xs => simp [List.modifyHead]

theorem spAux_false_headD : ∀ l : Str, (spAux false l).headD [] <+: l := by
  intro l
  induction l with
  | nil => simp [spAux]
  | cons c rest ih =>
    unfold spAux
    by_cases hc : isSentPunct c = true
    · rw [if_pos hc]
      rw [if_neg (by simp)]
      simp
    · rw [if_neg hc]
      cases h : spAux false rest with
      | nil => exact absurd h (spAux_ne_nil rest false)
      | cons x xs =>
        rw [h] at ih
        simp only [List.modifyHead, List.headD_cons] at ih ⊢
        exact ⟨_, by rw [← ih.choose_spec]; rfl⟩

theorem isInfix_cons_of_isInfix {seg l : Str} {a : Char}
    (h : seg <:+: l) : seg <:+: a :: l := by
  obtain ⟨s, t, rfl⟩ := h
  exact ⟨a :: s, t, rfl⟩

theorem spAux_isInfix : ∀ (l : Str) (b : Bool) (seg : Str),
    seg ∈ spAux b l → seg <:+: l := by
  intro l
  induction l with
  | nil =>
    intro b seg h
    simp [spAux] at h
    subst h
    exact ⟨[], [], rfl⟩
  | cons c rest ih =>
    intro b seg h
    unfold spAux at h
    by_cases hc : isSentPunct c = true
    · rw [if_pos hc] at h
      have hmem : seg = [] ∨ seg ∈ spAux true rest := by
        cases b with
        | true => exact Or.inr h
        | false =>
          rw [if_neg (by simp)] at h
          rcases List.mem_cons.1 h with h' | h'
          · exact Or.inl h'
          · exact Or.inr h'
      rcases hmem with rfl | hmem
      · exact ⟨[], c :: rest, rfl⟩
      · exact isInfix_cons_of_isInfix (ih true seg hmem)
    · rw [if_neg hc] at h
      cases hsp : spAux false rest with
      | nil => exact absurd hsp (spAux_ne_nil rest false)
      | cons x xs =>
        rw [hsp] at h
        simp only [List.modifyHead] at h
        rcases List.mem_cons.1 h with h' | h'
        · subst h'
          have hx : x <+: rest := by
            have := spAux_false_headD rest
            rw [hsp] at this
            simpa using this
          obtain ⟨t, ht⟩ := hx
          exact ⟨[], t, by simp [ht]⟩
        · have : seg ∈ spAux false rest := by
            rw [hsp]
            exact List.mem_cons_of_mem x h'
          exact isInfix_cons_of_isInfix (ih false seg this)

theorem spAux_no_punct : ∀ (l : Str) (b : Bool) (seg : Str),
    seg ∈ spAux b l → ∀ c ∈ seg, isSentPunct c = false := by
  intro l
  induction l with
  | nil =>
    intro b seg h
    simp [spAux] at h
    subst h
    intro c hc
    simp at hc
  | cons c rest ih =>
    intro b seg h
    unfold spAux at h
    by_cases hc : isSentPunct c = true
    · rw [if_pos hc] at h
      have hmem : seg = [] ∨ seg ∈ spAux true rest := by
        cases b with
        | true => exact Or.inr h
        | false =>
          rw [if_neg (by simp)] at h
          rcases List.mem_cons.1 h with h' | h'
          · exact Or.inl h'
          · exact Or.inr h'
      rcases hmem with rfl | hmem
      · intro d hd; simp at hd
      · exact ih true seg hmem
    · rw [if_neg hc] at h
      cases hsp : spAux false rest with
      | nil => exact absurd hsp (spAux_ne_nil rest false)
      | cons x xs =>
        rw [hsp] at h
        simp only [List.modifyHead] at h
        rcases List.mem_cons.1 h with h' | h'
        · subst h'
          intro d hd
          rcases List.mem_cons.1 hd with rfl | hd'
          · simpa using hc
          · exact ih false x (by rw [hsp]; exact List.mem_cons_self x xs) d hd'
        · exact ih false seg (by rw [hsp]; exact List.mem_cons_of_mem x h')

/-! ### Joining good pieces with spaces -/

theorem space_not_punct : isSentPunct ' ' = false := by decide

theorem noPU_of_no_punct {l : Str}
    (h : ∀ c ∈ l, isSentPunct c = false) : noPU l := by
  induction l with
  | nil => simp [noPU]
  | cons a rest ih =>
    refine List.chain'_cons'.2
      ⟨?_, ih fun c hc => h c (List.mem_cons_of_mem a hc)⟩
    intro b _ hcon
    have ha := h a (List.mem_cons_self a rest)
    rw [hcon.1] at ha
    exact absurd ha (by decide)

theorem sentChunkGood_chunkGood {l : Str} (h : SentChunkGood l) :
    ChunkGood l :=
  ⟨h.1, h.2.1, h.2.2.1, noPU_of_no_punct h.2.2.2.1, h.2.2.2.2.1,
   h.2.2.2.2.2⟩

theorem joinSp_cons_cons (p q : Str) (qs : List Str) :
    joinSp (p :: q :: qs) = p ++ ' ' :: joinSp (q :: qs) := rfl

theorem joinSp_head (p : Str) (ps : List Str) (hp : p ≠ []) :
    (joinSp (p :: ps)).head? = p.head? := by
  cases ps with
  | nil => rfl
  | cons q qs =>
    rw [joinSp_cons_cons]
    cases p with
    | nil => exact absurd rfl hp
    | cons a as => rfl

theorem joinSp_ne_nil (p : Str) (ps : List Str) (hp : p ≠ []) :
    joinSp (p :: ps) ≠ [] := by
  cases ps with
  | nil => exact hp
  | cons q qs =>
    rw [joinSp_cons_cons]
    cases p with
    | nil => exact absurd rfl hp
    | cons a as => simp

theorem getLast?_cons_ne_nil (a : Char) (l : Str) (h : l ≠ []) :
    (a :: l).getLast? = l.getLast? := by
  cases l with
  | nil => exact absurd rfl h
  | cons b bs => exact List.getLast?_cons_cons

theorem joinSp_good : ∀ pieces : List Str,
    (∀ p ∈ pieces, PieceGood p) → SentChunkGood (joinSp pieces) := by
  intro pieces
  induction pieces with
  | nil =>
    intro _
    refine ⟨?_, ?_, ?_, ?_, ?_, ?_⟩ <;> simp [joinSp, wsOnly, noWW, noLU,
      headOk, lastOk]
  | cons p ps ih =>
    intro h
    have hp := h p (List.mem_cons_self p ps)
    cases ps with
    | nil =>
      show SentChunkGood p
      exact ⟨hp.2.1, hp.2.2.1, hp.2.2.2.1, hp.2.2.2.2.1, hp.2.2.2.2.2⟩
    | cons q qs =>
      have hq := h q (List.mem_cons_of_mem p (List.mem_cons_self q qs))
      have ihg := ih fun r hr => h r (List.mem_cons_of_mem p hr)
      rw [joinSp_cons_cons]
      have hjhead : (joinSp (q :: qs)).head? = q.head? :=
        joinSp_head q qs hq.1
      have hjne : joinSp (q :: qs) ≠ [] := joinSp_ne_nil q qs hq.1
      obtain ⟨hws, hww, hlu, hpunct, hh, hl⟩ := ihg
      refine ⟨?_, ?_, ?_, ?_, ?_, ?_⟩
      · intro c hc
        rcases List.mem_append.1 hc with hc | hc
        · exact hp.2.1 c hc
        · rcases List.mem_cons.1 hc with rfl | hc
          · intro _; rfl
          · exact hws c hc
      · refine List.chain'_append.2 ⟨hp.2.2.1, ?_, ?_⟩
        · refine List.chain'_cons'.2 ⟨?_, hww⟩
          intro d hd hcon
          rw [hjhead] at hd
          have := hq.2.2.2.2.2.1 d hd
          rw [this] at hcon
          exact absurd hcon.2 (by simp)
        · intro x hx y hy
          simp only [List.head?_cons, Option.mem_def, Option.some.injEq] at hy
          subst hy
          intro hcon
          have := hp.2.2.2.2.2.2 x hx
          rw [this] at hcon
          exact absurd hcon.1 (by simp)
      · refine List.chain'_append.2 ⟨hp.2.2.2.1, ?_, ?_⟩
        · refine List.chain'_cons'.2 ⟨?_, hlu⟩
          intro d _ hcon
          rw [space_not_lower] at hcon
          exact absurd hcon.1 (by simp)
        · intro x hx y hy
          simp only [List.head?_cons, Option.mem_def, Option.some.injEq] at hy
          subst hy
          intro hcon
          rw [space_not_upper] at hcon
          exact absurd hcon.2 (by simp)
      · intro c hc
        rcases List.mem_append.1 hc with hc | hc
        · exact hp.2.2.2.2.1 c hc
        · rcases List.mem_cons.1 hc with rfl | hc
          · exact space_not_punct
          · exact hpunct c hc
      · intro c hc
        cases hpc : p with
        | nil => exact absurd hpc hp.1
        | cons a as =>
          rw [hpc] at hc
          simp only [List.cons_append, List.head?_cons, Option.mem_def,
            Option.some.injEq] at hc
          subst hc
          have := hp.2.2.2.2.2.1
          rw [hpc] at this
          exact this _ rfl
      · intro c hc
        rw [List.getLast?_append_cons] at hc
        rw [getLast?_cons_ne_nil ' ' _ hjne] at hc
        exact hl c hc

/-! ### The sentence loop preserves the chunk invariant -/

theorem strip_pieceGood {raw : Str} (h : RawSentOk raw)
    (hne : stripL raw ≠ []) : PieceGood (stripL raw) := by
  obtain ⟨hws, hww, hlu, hpunct⟩ := h
  have hinf := stripL_isInfix raw
  exact ⟨hne, wsOnly_of_isInfix hws hinf, chain'_of_isInfix hww hinf,
    chain'_of_isInfix hlu hinf, fun c hc => hpunct c (hinf.subset hc),
    stripL_headOk raw, stripL_lastOk raw⟩

theorem overlapTake_mem (ov : Nat) : ∀ (rev : List Str) (n : Nat)
    (x : Str), x ∈ (overlapTake ov rev n).1 → x ∈ rev := by
  intro rev
  induction rev with
  | nil => intro n x hx; simp [overlapTake] at hx
  | cons s rest ih =>
    intro n x hx
    unfold overlapTake at hx
    by_cases hfit : n + s.length ≤ ov
    · rw [if_pos hfit] at hx
      simp only at hx
      rcases List.mem_append.1 hx with hx | hx
      · exact List.mem_cons_of_mem s (ih _ x hx)
      · simp only [List.mem_singleton] at hx
        subst hx
        exact List.mem_cons_self x rest
    · rw [if_neg hfit] at hx
      simp at hx

theorem cbsStep_inv (cfg : ChunkCfg) (st : ChunkState) (raw : Str)
    (hst : CBSInv st) (hraw : RawSentOk raw) :
    CBSInv (cbsStep cfg st raw) := by
  have hstep : cbsStep cfg st raw =
      if stripL raw = [] then st
      else
        (fun st' => ChunkState.mk st'.chunks (st'.cur ++ [stripL raw])
          (st'.curLen + (stripL raw).length))
        (if cfg.maxSize < st.curLen + (stripL raw).length ∧ st.cur ≠ [] then
          ChunkState.mk
            (if cfg.minSize ≤ (joinSp st.cur).length then
              st.chunks ++ [joinSp st.cur]
            else st.chunks)
            (overlapTake cfg.overlap st.cur.reverse 0).1
            (overlapTake cfg.overlap st.cur.reverse 0).2
        else st) := rfl
  rw [hstep]
  by_cases hs : stripL raw = []
  · rw [if_pos hs]
    exact hst
  · rw [if_neg hs]
    have hpiece : PieceGood (stripL raw) := strip_pieceGood hraw hs
    by_cases hover : cfg.maxSize < st.curLen + (stripL raw).length ∧
        st.cur ≠ []
    · rw [if_pos hover]
      constructor
      · intro c hc
        simp only at hc
        by_cases hmin : cfg.minSize ≤ (joinSp st.cur).length
        · rw [if_pos hmin] at hc
          rcases List.mem_append.1 hc with hc | hc
          · exact hst.1 c hc
          · simp only [List.mem_singleton] at hc
            subst hc
            exact joinSp_good st.cur hst.2
        · rw [if_neg hmin] at hc
          exact hst.1 c hc
      · intro p hp
        simp only at hp
        rcases List.mem_append.1 hp with hp | hp
        · have := overlapTake_mem cfg.overlap st.cur.reverse 0 p hp
          exact hst.2 p (List.mem_reverse.1 this)
        · simp only [List.mem_singleton] at hp
          subst hp
          exact hpiece
    · rw [if_neg hover]
      constructor
      · intro c hc
        exact hst.1 c hc
      · intro p hp
        simp only at hp
        rcases List.mem_append.1 hp with hp | hp
        · exact hst.2 p hp
        · simp only [List.mem_singleton] at hp
          subst hp
          exact hpiece

theorem cbs_fold_inv (cfg : ChunkCfg) : ∀ (sents : List Str)
    (st : ChunkState), (∀ r ∈ sents, RawSentOk r) → CBSInv st →
    CBSInv (sents.foldl (cbsStep cfg) st) := by
  intro sents
  induction sents with
  | nil => intro st _ hst; exact hst
  | cons r rest ih =>
    intro st hr hst
    rw [List.foldl_cons]
    exact ih _ (fun r' hr' => hr r' (List.mem_cons_of_mem r hr'))
      (cbsStep_inv cfg st r hst (hr r (List.mem_cons_self r rest)))

theorem cbsFinal_good (cfg : ChunkCfg) (st : ChunkState)
    (hst : CBSInv st) : ∀ c ∈ cbsFinal cfg st, SentChunkGood c := by
  intro c hc
  unfold cbsFinal at hc
  by_cases hcur : st.cur ≠ []
  · rw [if_pos hcur] at hc
    simp only at hc
    by_cases hmin : cfg.minSize ≤ (joinSp st.cur).length
    · rw [if_pos hmin] at hc
      rcases List.mem_append.1 hc with hc | hc
      · exact hst.1 c hc
      · simp only [List.mem_singleton] at hc
        subst hc
        exact joinSp_good st.cur hst.2
    · rw [if_neg hmin] at hc
      exact hst.1 c hc
  · rw [if_neg hcur] at hc
    exact hst.1 c hc

theorem chunkBySentencesFB_good (cfg : ChunkCfg) (s : Str) (hs : SGood s) :
    ∀ c ∈ chunkBySentencesL splitPunct cfg s, SentChunkGood c := by
  intro c hc
  unfold chunkBySentencesL at hc
  refine cbsFinal_good cfg _ ?_ c hc
  refine cbs_fold_inv cfg (splitPunct s) ⟨[], [], 0⟩ ?_ ?_
  · intro r hr
    have hinf := spAux_isInfix s false r hr
    exact ⟨wsOnly_of_isInfix hs.1 hinf, chain'_of_isInfix hs.2.1 hinf,
      chain'_of_isInfix hs.2.2 hinf, spAux_no_punct s false r hr⟩
  · exact ⟨fun c hc => by simp at hc, fun p hp => by simp at hp⟩

/-! ### Every chunk smart_chunk produces is a clean_text fixpoint -/

theorem smartChunkFB_chunkGood (cfg : ChunkCfg) (t : Str) :
    ∀ c ∈ smartChunkFB cfg t, ChunkGood c := by
  intro c hc
  unfold smartChunkFB smartChunkL at hc
  by_cases hlen : (cleanTextL t).length ≤ cfg.maxSize
  · rw [if_pos hlen] at hc
    by_cases hmin : cfg.minSize ≤ (cleanTextL t).length
    · rw [if_pos hmin] at hc
      simp only [List.mem_singleton] at hc
      subst hc
      exact cleanTextL_chunkGood t
    · rw [if_neg hmin] at hc
      simp at hc
  · rw [if_neg hlen] at hc
    have hclean := cleanTextL_chunkGood t
    have hSG : SGood (cleanTextL t) := ⟨hclean.1, hclean.2.1, hclean.2.2.1⟩
    have hbig : cfg.maxSize < (cleanTextL t).length := by omega
    have hcbp : chunkByParagraphsL splitPunct cfg (cleanTextL t) =
        chunkBySentencesL splitPunct cfg (cleanTextL t) := by
      refine cbp_single_large _ _ _ ?_ hbig
      refine paragraphsOf_clean (wsOnly_no_nl hclean.1)
        hclean.2.2.2.2.1 hclean.2.2.2.2.2 ?_
      intro he
      rw [he] at hbig
      simp at hbig
    rw [hcbp] at hc
    have hc' := List.mem_filter.1 hc
    obtain ⟨c₀, hc₀, hcmem⟩ := List.mem_flatMap.1 hc'.1
    have hc₀good : SentChunkGood c₀ :=
      chunkBySentencesFB_good cfg _ hSG c₀ hc₀
    by_cases hre : cfg.maxSize < c₀.length
    · rw [if_pos hre] at hcmem
      have hSG₀ : SGood c₀ := ⟨hc₀good.1, hc₀good.2.1, hc₀good.2.2.1⟩
      exact sentChunkGood_chunkGood
        (chunkBySentencesFB_good cfg c₀ hSG₀ c hcmem)
    · rw [if_neg hre] at hcmem
      simp only [List.mem_singleton] at hcmem
      subst hcmem
      exact sentChunkGood_chunkGood hc₀good

/-- Claim C9: re-applying `smart_chunk` (with the repository's fallback
sentence splitter) to any chunk it produced whose length lies within
`[min_chunk_size, max_chunk_size]` returns that chunk unchanged, as a
one-element list.  The key fact is that every produced chunk is a
fixpoint of `clean_text`: it has single spaces as its only whitespace,
no missing space after a lowercase-uppercase transition or a period, and
no whitespace at its ends. -/
theorem c9_smart_chunk_idempotent (cfg : ChunkCfg) (t c : Str)
    (hc : c ∈ smartChunkFB cfg t) (hmin : cfg.minSize ≤ c.length)
    (hmax : c.length ≤ cfg.maxSize) :
    smartChunkFB cfg c = [c] := by
  have hg := smartChunkFB_chunkGood cfg t c hc
  unfold smartChunkFB smartChunkL
  rw [cleanTextL_id hg]
  rw [if_pos hmax, if_pos hmin]

/-- Witness for C9: a short chunk produced from a short document is
reproduced unchanged. -/
theorem c9_witness :
    smartChunkFB ⟨10, 3, 2⟩ "hello".toList = ["hello".toList] :=
  c9_smart_chunk_idempotent ⟨10, 3, 2⟩ "hello".toList "hello".toList
    (by decide) (by decide) (by decide)

end MathruAI
